import Mathlib

/-!
Verification of the kwin-types-parser type system against its specification.

The definitions below are a shallow embedding of the TypeScript sources:

* `src/type-system/type-parser.ts` — chevrotain-based lexer and the manual
  recursive-descent parser of C++ type signatures (`CppTypeAnalyzer`);
* `src/type-system/type-utils.ts` — plain string-cleaning helpers;
* `src/type-system/type-system.ts` — `TypeRegistry` and `TypeConverter`;
* `src/type-system/type-dependency-tracker.ts` — link enrichment;
* `src/services/document-parser.ts` — `TypeDependencyService`.

Strings are modelled by Lean `String`, JavaScript `Map`s by insertion-ordered
association lists, `undefined`/nullable values by `Option`, thrown-and-caught
errors by `Except`/`Option` results.  Recursion that in the source goes
through re-lexed strings is fuel-based (structural on the fuel), with the
canonical fuel `s.length + 1`, which is always sufficient because every
re-parsed fragment is strictly shorter than its parent string.
-/

set_option maxRecDepth 20000
set_option maxHeartbeats 1000000

namespace KTP

/-! ### Lexer (`type-parser.ts`, token definitions and `tokenize`)

Token order in `allTokens` is WhiteSpace (skipped), Const, Scope, Dot,
LeftAngle, RightAngle, LeftBracket, RightBracket, Comma, Asterisk, Ampersand,
Identifier.  Chevrotain picks, at each position, the first token type whose
pattern matches there (so `const` wins over an identifier even when followed
by more word characters, exactly as the regex `/const/` does).  Any character
no pattern matches is a lexing error; the "known-benign" allowlist in
`CppTypeAnalyzer.tokenize` mentions only characters (`[`, `.`) that are
themselves tokens, so it never fires and every lexing error makes
`tokenize` return `null`. -/

inductive Tok where
  | constTok
  | scope
  | dot
  | lAngle
  | rAngle
  | lBracket
  | rBracket
  | comma
  | asterisk
  | ampersand
  | ident (s : String)
deriving DecidableEq, Repr

def tokImage : Tok → String
  | .constTok => "const"
  | .scope => "::"
  | .dot => "."
  | .lAngle => "<"
  | .rAngle => ">"
  | .lBracket => "["
  | .rBracket => "]"
  | .comma => ","
  | .asterisk => "*"
  | .ampersand => "&"
  | .ident s => s

/-- `/[a-zA-Z_]/` — the first character of an Identifier token. -/
def isIdentStart (c : Char) : Bool := c.isAlpha || c = '_'

/-- `\w`, i.e. `[a-zA-Z0-9_]` — the continuation characters of an Identifier. -/
def isIdentChar (c : Char) : Bool := c.isAlphanum || c = '_'

def constChars : List Char := ['c', 'o', 'n', 's', 't']

/-- One pass of the chevrotain lexer.  Fuel is structural; each step consumes
at least one character, so fuel `length + 1` never runs out. -/
def lexGo : Nat → List Char → Option (List Tok)
  | 0, _ => none
  | _ + 1, [] => some []
  | fuel + 1, c :: cs =>
    if c.isWhitespace then lexGo fuel cs
    else if constChars.isPrefixOf (c :: cs) then
      (lexGo fuel ((c :: cs).drop 5)).map (fun ts => Tok.constTok :: ts)
    else if c = ':' then
      if cs.head? = some ':' then (lexGo fuel cs.tail).map (fun ts => Tok.scope :: ts)
      else none
    else if c = '.' then (lexGo fuel cs).map (fun ts => Tok.dot :: ts)
    else if c = '<' then (lexGo fuel cs).map (fun ts => Tok.lAngle :: ts)
    else if c = '>' then (lexGo fuel cs).map (fun ts => Tok.rAngle :: ts)
    else if c = '[' then (lexGo fuel cs).map (fun ts => Tok.lBracket :: ts)
    else if c = ']' then (lexGo fuel cs).map (fun ts => Tok.rBracket :: ts)
    else if c = ',' then (lexGo fuel cs).map (fun ts => Tok.comma :: ts)
    else if c = '*' then (lexGo fuel cs).map (fun ts => Tok.asterisk :: ts)
    else if c = '&' then (lexGo fuel cs).map (fun ts => Tok.ampersand :: ts)
    else if isIdentStart c then
      (lexGo fuel (cs.dropWhile isIdentChar)).map
        (fun ts => Tok.ident (String.mk (c :: cs.takeWhile isIdentChar)) :: ts)
    else none

def lexChars (cs : List Char) : Option (List Tok) := lexGo (cs.length + 1) cs

/-- `CppTypeAnalyzer.tokenize`: `null` on (any) lexing error, else the tokens. -/
def tokenize (s : String) : Option (List Tok) := lexChars s.data

/-! ### Parsed type (`ParsedType` interface) -/

/-- `ParsedType` of `type-parser.ts`.  The source field `namespace` is a Lean
keyword and is called `nspace` here.  `templateArgs` is `Option` because the
source distinguishes `undefined` from an (empty) array. -/
inductive ParsedType where
  | mk (baseType : String) (nspace : Option String)
       (templateArgs : Option (List ParsedType))
       (isConst : Bool) (isPointer : Bool) (isReference : Bool)
       (fullName : String)

def ParsedType.baseType : ParsedType → String
  | .mk b _ _ _ _ _ _ => b

def ParsedType.nspace : ParsedType → Option String
  | .mk _ n _ _ _ _ _ => n

def ParsedType.templateArgs : ParsedType → Option (List ParsedType)
  | .mk _ _ t _ _ _ _ => t

def ParsedType.isConst : ParsedType → Bool
  | .mk _ _ _ c _ _ _ => c

def ParsedType.isPointer : ParsedType → Bool
  | .mk _ _ _ _ p _ _ => p

def ParsedType.isReference : ParsedType → Bool
  | .mk _ _ _ _ _ r _ => r

def ParsedType.fullName : ParsedType → String
  | .mk _ _ _ _ _ _ f => f

/-! ### Parser (`CppTypeAnalyzer`) -/

/-- `Array.prototype.join(sep)`. -/
def joinSep (sep : String) : List String → String
  | [] => ""
  | [x] => x
  | x :: y :: xs => x ++ sep ++ joinSep sep (y :: xs)

/-- Namespace of a qualified name: `parseQualifiedType` returns no namespace
when a single identifier was seen, else the leading identifiers re-joined
with `::` (dots included, as the loop accepts both separators). -/
def nsOf : List String → Option String
  | [] => none
  | ps => some (joinSep "::" ps)

/-- `buildFullName`: `[namespace::]baseType[<arg1, arg2, …>]`; the generic
suffix is emitted only when `templateArgs` is present *and* non-empty. -/
def buildFullName (base : String) (nspace : Option String)
    (targs : Option (List ParsedType)) : String :=
  let name := match nspace with
    | some n => n ++ "::" ++ base
    | none => base
  match targs with
  | some (a :: as) => name ++ "<" ++ joinSep ", " ((a :: as).map ParsedType.fullName) ++ ">"
  | _ => name

/-- `buildTypeFullName`: `buildFullName` plus the `[]` array suffix. -/
def buildTypeFullName (base : String) (nspace : Option String)
    (targs : Option (List ParsedType)) (isArrayType : Bool) : String :=
  buildFullName base nspace targs ++ (if isArrayType then "[]" else "")

/-- The `while` loop of `parseQualifiedType`: consume `(:: | .) identifier`
pairs (the source checks `index + 1 < tokens.length`, which the two-token
pattern reproduces). -/
def parseQualGo : List String → List Tok → List String × List Tok
  | acc, Tok.scope :: Tok.ident w :: rest => parseQualGo (acc ++ [w]) rest
  | acc, Tok.dot :: Tok.ident w :: rest => parseQualGo (acc ++ [w]) rest
  | acc, rest => (acc, rest)

/-- `parseQualifiedType`: requires a leading identifier; the last identifier
is the base type, the earlier ones (joined with `::`) the namespace. -/
def parseQualifiedTypeT : List Tok → Option ((String × Option String) × List Tok)
  | Tok.ident w :: rest =>
    let (ids, rest2) := parseQualGo [w] rest
    some ((ids.getLastD w, nsOf ids.dropLast), rest2)
  | _ => none

def isTemplateStart (t : Tok) : Bool := t = Tok.lAngle

def isTemplateEnd (t : Tok) : Bool := t = Tok.rAngle

/-- `isArgumentSeparator`: a comma at nesting depth exactly 1. -/
def isArgumentSeparator (t : Tok) (depth : Nat) : Bool :=
  t = Tok.comma && depth = 1

/-- `addArgumentIfValid`: parse the collected slice; drop it if empty or
unparseable. -/
def addArgumentIfValid (pf : List Tok → Option ParsedType) (cur : List Tok) :
    List ParsedType :=
  match cur with
  | [] => []
  | _ =>
    match pf cur with
    | some p => [p]
    | none => []

/-- `collectTemplateArguments`: walk the tokens after the opening `<` at
depth 1; `<`/`>` adjust the depth, a depth-1 comma separates arguments, the
depth-1 `>` finishes (the current slice is flushed); running out of tokens
abandons the unfinished slice.  `pf` is `parseTypeFromTokens` (reassemble
the slice and re-parse it as a string). -/
def collectGo (pf : List Tok → Option ParsedType) :
    List Tok → List Tok → List ParsedType → Nat → List ParsedType × List Tok
  | [], _cur, args, _d => (args, [])
  | t :: ts, cur, args, d =>
    if isTemplateStart t then collectGo pf ts (cur ++ [t]) args (d + 1)
    else if isTemplateEnd t then
      if d = 1 then (args ++ addArgumentIfValid pf cur, ts)
      else collectGo pf ts (cur ++ [t]) args (d - 1)
    else if isArgumentSeparator t d then
      collectGo pf ts [] (args ++ addArgumentIfValid pf cur) d
    else collectGo pf ts (cur ++ [t]) args d

/-- The bracket-matching scan of `checkForArrayType` (depth starts at 1 after
the opening `[`; `none` when the brackets never balance). -/
def bracketScan : Nat → List Tok → Option (List Tok)
  | 0, ts => some ts
  | _ + 1, [] => none
  | d + 1, t :: ts =>
    bracketScan (if t = Tok.lBracket then d + 2 else if t = Tok.rBracket then d else d + 1) ts

/-- `checkForArrayType`: consume one balanced square-bracket group; if the
group is unbalanced the index is left unchanged (the step aborts without
failing the parse). -/
def checkForArrayTypeT : List Tok → Bool × List Tok
  | Tok.lBracket :: rest =>
    match bracketScan 1 rest with
    | some rest2 => (true, rest2)
    | none => (false, Tok.lBracket :: rest)
  | toks => (false, toks)

/-- `parseTypeExpression`: qualified name, optional template arguments,
optional array suffix; flags are left `false` (the caller sets them). -/
def parseTypeExpressionT (pf : List Tok → Option ParsedType) (toks : List Tok) :
    Option (ParsedType × List Tok) :=
  match parseQualifiedTypeT toks with
  | none => none
  | some ((base, nspace), rest) =>
    let tr : Option (List ParsedType) × List Tok :=
      match rest with
      | Tok.lAngle :: rs =>
        let (args, rs2) := collectGo pf rs [] [] 1
        (some args, rs2)
      | _ => (none, rest)
    let (isArr, rest2) := checkForArrayTypeT tr.2
    some (ParsedType.mk base nspace tr.1 false false false
            (buildTypeFullName base nspace tr.1 isArr), rest2)

/-- The optional leading `const` token of `parseType`. -/
def stripConstTok : List Tok → Bool × List Tok
  | Tok.constTok :: rest => (true, rest)
  | toks => (false, toks)

/-- The trailing `while` loop of `parseType`: `*` sets `isPointer`, `&` sets
`isReference`, anything else is skipped silently. -/
def trailingFlagsGo : Bool → Bool → List Tok → Bool × Bool
  | p, r, [] => (p, r)
  | p, r, t :: ts =>
    if t = Tok.asterisk then trailingFlagsGo true r ts
    else if t = Tok.ampersand then trailingFlagsGo p true ts
    else trailingFlagsGo p r ts

/-- `parseType` on an already-lexed token list. -/
def parseTokensT (pf : List Tok → Option ParsedType) (toks : List Tok) :
    Option ParsedType :=
  let (isC, t1) := stripConstTok toks
  match parseTypeExpressionT pf t1 with
  | none => none
  | some (ty, rest) =>
    let (isPtr, isRef) := trailingFlagsGo false false rest
    some (ParsedType.mk ty.baseType ty.nspace ty.templateArgs isC isPtr isRef ty.fullName)

/-- `parseTypeFromTokens` reassembles a slice by joining the token images
(with no separators) before re-parsing it as a string. -/
def imagesData : List Tok → List Char
  | [] => []
  | t :: ts => (tokImage t).data ++ imagesData ts

def joinImages (ts : List Tok) : String := String.mk (imagesData ts)

/-- `CppTypeAnalyzer.parseType`, fuelled: lex, strip `const`, parse the
expression, absorb trailing tokens.  The recursion (via
`parseTypeFromTokens`) re-enters on a strictly shorter string. -/
def parseTypeF : Nat → String → Option ParsedType
  | 0, _ => none
  | fuel + 1, s =>
    match tokenize s with
    | none => none
    | some toks => parseTokensT (fun sl => parseTypeF fuel (joinImages sl)) toks

/-- `CppTypeAnalyzer.parseType`. -/
def parseType (s : String) : Option ParsedType := parseTypeF (s.length + 1) s

/-! ### String utilities (`type-utils.ts`)

The JS string primitives are re-implemented structurally on character lists
(the core library versions recurse on byte positions, which the kernel does
not evaluate). -/

/-- `String.prototype.startsWith`. -/
def jsStartsWith (s pre : String) : Bool := pre.data.isPrefixOf s.data

/-- `String.prototype.endsWith`. -/
def jsEndsWith (s suf : String) : Bool := suf.data.reverse.isPrefixOf s.data.reverse

/-- `String.prototype.trim`. -/
def jsTrim (s : String) : String :=
  String.mk (((s.data.dropWhile Char.isWhitespace).reverse.dropWhile Char.isWhitespace).reverse)

/-- `String.prototype.split` with a non-empty literal separator. -/
def jsSplitGo (sep : List Char) : Nat → List Char → List Char → List String
  | 0, acc, cs => [String.mk (acc ++ cs)]
  | fuel + 1, acc, cs =>
    match cs with
    | [] => [String.mk acc]
    | c :: cs2 =>
      if sep.isPrefixOf cs then
        String.mk acc :: jsSplitGo sep fuel [] (cs.drop sep.length)
      else jsSplitGo sep fuel (acc ++ [c]) cs2

def jsSplitOn (s sep : String) : List String :=
  if sep.data = [] then [s] else jsSplitGo sep.data (s.data.length + 1) [] s.data

/-- `CppTypeAnalyzer.normalizeType`: the parsed `fullName` with `const `/
`*`/`&` re-attached, or `trim` of the input when parsing fails. -/
def normalizeType (s : String) : String :=
  match parseType s with
  | none => jsTrim s
  | some p =>
    let r := p.fullName
    let r := if p.isConst then "const " ++ r else r
    let r := if p.isPointer then r ++ "*" else r
    if p.isReference then r ++ "&" else r

/-- Literal, global, left-to-right, non-overlapping replacement — the JS
`String.prototype.replace` with a global regex of a literal pattern. -/
def jsReplaceAllGo (pat repl : List Char) : Nat → List Char → List Char
  | 0, cs => cs
  | fuel + 1, cs =>
    match cs with
    | [] => []
    | c :: cs2 =>
      if pat ≠ [] && pat.isPrefixOf cs then
        repl ++ jsReplaceAllGo pat repl fuel (cs.drop pat.length)
      else c :: jsReplaceAllGo pat repl fuel cs2

def jsReplaceAll (s pat repl : String) : String :=
  String.mk (jsReplaceAllGo pat.data repl.data (s.data.length + 1) s.data)

/-- `.replace(/\s+/g, " ")`: collapse each maximal whitespace run to one
space (the Bool argument records whether the previous character was
whitespace). -/
def collapseWsGo : Bool → List Char → List Char
  | _, [] => []
  | prevWs, c :: cs =>
    if c.isWhitespace then
      (if prevWs then [] else [' ']) ++ collapseWsGo true cs
    else c :: collapseWsGo false cs

def jsCollapseWhitespace (s : String) : String := String.mk (collapseWsGo false s.data)

/-- `.replace(/\bconst\b/g, "")`: drop each occurrence of the word `const`
whose neighbours (in the original string) are not word characters.  The
`Option Char` argument is the character preceding the current position. -/
def dropConstWordGo : Nat → Option Char → List Char → List Char
  | 0, _, cs => cs
  | fuel + 1, prev, cs =>
    match cs with
    | [] => []
    | c :: cs2 =>
      if constChars.isPrefixOf cs
          && (match prev with | some p => !isIdentChar p | none => true)
          && (match cs.drop 5 with | c5 :: _ => !isIdentChar c5 | [] => true) then
        dropConstWordGo fuel (some 't') (cs.drop 5)
      else c :: dropConstWordGo fuel (some c) cs2

namespace TypeUtils

/-- `cleanCppTypeString`: drop `\bconst\b`, drop `&`/`*`, collapse
whitespace, trim. -/
def cleanCppTypeString (s : String) : String :=
  let s1 := dropConstWordGo (s.data.length + 1) none s.data
  let s2 := s1.filter (fun c => c ≠ '&' && c ≠ '*')
  jsTrim (jsCollapseWhitespace (String.mk s2))

/-- `cleanTypeForLookup`: drop `<ideographs>`, `*`, `&`, `[`, `]`, trim. -/
def cleanTypeForLookup (s : String) : String :=
  (String.mk (s.data.filter
    (fun c => c ≠ '<' && c ≠ '>' && c ≠ '*' && c ≠ '&' && c ≠ '[' && c ≠ ']')))
    |> jsTrim

/-- `extractTypeName`: the last `::`-segment (`pop() || fullTypeName`, so an
empty last segment falls back to the whole string). -/
def extractTypeName (s : String) : String :=
  match (jsSplitOn s "::").getLast? with
  | some last => if last = "" then s else last
  | none => s

/-- `normalizeTypeName` of `type-utils.ts`: collapse whitespace and trim. -/
def normalizeTypeName (s : String) : String := jsTrim (jsCollapseWhitespace s)

/-- `isObjectLiteral`: starts with an opening and ends with a closing brace. -/
def isObjectLiteral (s : String) : Bool := jsStartsWith s "\x7b" && jsEndsWith s "\x7d"

end TypeUtils

/-! ### Registry (`type-system.ts`, `TypeRegistry`) -/

structure TypeDefinition where
  name : String
  tsType : String
  category : String := "custom"
  description : Option String := none
  aliases : List String := []
  templateParams : List String := []
  nspace : Option String := none

structure TemplateMapping where
  pattern : String
  replacement : String
  description : Option String := none

structure NamespaceMapping where
  cppNamespace : String
  tsNamespace : String
  stripNamespace : Bool := false

/-- `TypeConversionRule` carries executable predicate/transform closures. -/
structure TypeConversionRule where
  name : String
  condition : String → Bool
  transform : String → String
  priority : Int

structure TypeMappingConfig where
  mappings : List TypeDefinition
  templateMappings : List TemplateMapping
  namespaceMappings : List NamespaceMapping
  customRules : List TypeConversionRule

/-- A JS `Map<string, α>` as an insertion-ordered association list. -/
def lookupAssoc (m : List (String × α)) (k : String) : Option α :=
  (m.find? (fun e => e.1 = k)).map (fun e => e.2)

/-- `Map.prototype.set`: overwrite in place, else append. -/
def mapSet (m : List (String × α)) (k : String) (v : α) : List (String × α) :=
  if (m.find? (fun e => e.1 = k)).isSome then
    m.map (fun e => if e.1 = k then (k, v) else e)
  else m ++ [(k, v)]

structure TypeRegistry where
  typeDefinitions : List (String × TypeDefinition) := []
  aliasMap : List (String × String) := []
  templateMappings : List TemplateMapping := []
  namespaceMappings : List NamespaceMapping := []
  customRules : List TypeConversionRule := []
  cacheMap : List (String × String) := []

/-- `TypeRegistry.clearAllCaches` — clears only the registry-internal
`cacheMap` (which, in the source, is in fact never written to). -/
def TypeRegistry.clearAllCaches (r : TypeRegistry) : TypeRegistry :=
  { r with cacheMap := [] }

/-- `TypeRegistry.registerType`: store the definition, register aliases,
clear the registry cache. -/
def TypeRegistry.registerType (r : TypeRegistry) (td : TypeDefinition) : TypeRegistry :=
  let r1 := { r with typeDefinitions := mapSet r.typeDefinitions td.name td }
  let r2 := { r1 with aliasMap := td.aliases.foldl (fun m a => mapSet m a td.name) r1.aliasMap }
  r2.clearAllCaches

/-- Stable insertion step for the descending-priority order (JS
`sort((a, b) => b.priority - a.priority)` is stable). -/
def insertRuleDesc (x : TypeConversionRule) : List TypeConversionRule → List TypeConversionRule
  | [] => [x]
  | y :: ys => if x.priority ≤ y.priority then y :: insertRuleDesc x ys else x :: y :: ys

def sortRulesDesc (rs : List TypeConversionRule) : List TypeConversionRule :=
  rs.foldl (fun acc x => insertRuleDesc x acc) []

/-- `TypeRegistry.addCustomRule`: push, re-sort by descending priority,
clear the registry cache. -/
def TypeRegistry.addCustomRule (r : TypeRegistry) (rule : TypeConversionRule) : TypeRegistry :=
  ({ r with customRules := sortRulesDesc (r.customRules ++ [rule]) }).clearAllCaches

/-- `TypeRegistry.loadFromConfig`: clear every table and the cache, register
all mappings, copy the template/namespace mappings, sort the custom rules. -/
def TypeRegistry.loadFromConfig (_r : TypeRegistry) (config : TypeMappingConfig) : TypeRegistry :=
  let base : TypeRegistry := {}
  let withTypes := config.mappings.foldl (fun r td => r.registerType td) base
  { withTypes with
    templateMappings := config.templateMappings,
    namespaceMappings := config.namespaceMappings,
    customRules := sortRulesDesc config.customRules }

/-- `TypeRegistry.getType`: resolve through the alias map (`get(name) ||
name`, so an empty-string alias target falls back) and look up. -/
def TypeRegistry.getType (r : TypeRegistry) (name : String) : Option TypeDefinition :=
  let actual := match lookupAssoc r.aliasMap name with
    | some a => if a = "" then name else a
    | none => name
  lookupAssoc r.typeDefinitions actual

/-! ### Converter (`type-system.ts`, `TypeConverter`)

The converter memoizes into `conversionCache` (here: an explicit `Cache`
value threaded through every call).  The mutual recursion of
`cppToTypeScript`/`performConversion`/`handleTemplateTypes`/
`resolveTemplateTypes` is tied with fuel at `cppToTypeScript` only; the
helpers receive the next-level converter as the `conv` argument. -/

def Cache := List (String × String)

/-- A converter step.  `none` models a thrown `TypeError` propagating out of
the call (see `handleSpecialContainers`). -/
def ConvFun := Cache → String → Option (String × Cache)

/-- `createBaseTypePattern`: strip one leading `^` and one trailing `$`
(`replace(/(^\^)|(\$$)/g, "")`), then keep the part before the first `<`. -/
def createBaseTypePattern (p : String) : String :=
  let p1 := if jsStartsWith p "^" then String.mk (p.data.drop 1) else p
  let p2 := if jsEndsWith p1 "$" then String.mk p1.data.dropLast else p1
  ((jsSplitOn p2 "<").headD p2)

/-- Model of `new RegExp("^" ++ pat ++ "$").test s` for pattern fragments
without regex metacharacters (every pattern the spec scenarios exercise is a
plain identifier, for which the anchored test is string equality). -/
def regexTestLit (pat s : String) : Bool := pat = s

/-- `checkTemplateMapping`: the rule's base-type portion, matched (anchored)
against the parsed base type. -/
def checkTemplateMapping (parsed : ParsedType) (m : TemplateMapping) : Bool :=
  regexTestLit (createBaseTypePattern m.pattern) parsed.baseType

/-- `cleanTypeString`: the parsed normalized `fullName`, or the plain-text
cleanup when parsing fails. -/
def cleanTypeString (s : String) : String :=
  match parseType s with
  | some p => p.fullName
  | none => TypeUtils.cleanCppTypeString s

/-- Convert each template argument in order (`templateArgs.map(arg =>
this.cppToTypeScript(arg.fullName))`), threading the memo cache; a thrown
error in any argument propagates. -/
def convertArgsList (conv : ConvFun) (cache : Cache) :
    List ParsedType → Option (List String × Cache)
  | [] => some ([], cache)
  | a :: as =>
    match conv cache a.fullName with
    | none => none
    | some (r, c2) =>
      match convertArgsList conv c2 as with
      | none => none
      | some (rs, c3) => some (r :: rs, c3)

/-- The `reduce` of `handleTemplateTypes`: replace every occurrence of
`$(i)` in the accumulator by the converted i-th argument (1-based); a
thrown error in any argument propagates. -/
def substPlaceholders (conv : ConvFun) (cache : Cache) :
    List ParsedType → String → Nat → Option (String × Cache)
  | [], acc, _ => some (acc, cache)
  | a :: as, acc, i =>
    match conv cache a.fullName with
    | none => none
    | some (repl, c2) =>
      substPlaceholders conv c2 as (jsReplaceAll acc ("$" ++ toString i) repl) (i + 1)

/-- `handleSpecialContainers`: `Array`/`Map`/`Set` to the target notation;
the inner `none` is the source's `null` ("not applicable").  The outer
`none` models a thrown `TypeError`: with `Array`/`Set` and an *empty*
template-argument list (an empty array is JS-truthy, so the
`!parsed.templateArgs` guards upstream do not filter it) the source
dereferences `parsed.templateArgs[0]` of an empty array, and the resulting
TypeError escapes `cppToTypeScript`.  That state is reachable — for example
through a template-mapping replacement such as `"Array<>"`, which
`resolveTemplateTypes` re-parses into a `templateArgs: []` value. -/
def handleSpecialContainers (conv : ConvFun) (cache : Cache) (parsed : ParsedType) :
    Option (Option String × Cache) :=
  match parsed.templateArgs with
  | none => some (none, cache)
  | some args =>
    if parsed.baseType = "Array" then
      match args with
      | a :: _ =>
        match conv cache a.fullName with
        | none => none
        | some (inner, c2) => some (some (inner ++ "[]"), c2)
      | [] => none
    else if parsed.baseType = "Map" && args.length ≥ 2 then
      match args with
      | k :: v :: _ =>
        match conv cache k.fullName with
        | none => none
        | some (kt, c2) =>
          match conv c2 v.fullName with
          | none => none
          | some (vt, c3) => some (some ("Map<" ++ kt ++ ", " ++ vt ++ ">"), c3)
      | _ => some (none, cache)
    else if parsed.baseType = "Set" then
      match args with
      | a :: _ =>
        match conv cache a.fullName with
        | none => none
        | some (inner, c2) => some (some ("Set<" ++ inner ++ ">"), c2)
      | [] => none
    else some (none, cache)

/-- `resolveTemplateTypes`: re-parse; if the type has template arguments,
try the special containers, else rebuild with each argument converted; a
thrown error propagates. -/
def resolveTemplateTypes (conv : ConvFun) (cache : Cache) (ty : String) :
    Option (String × Cache) :=
  match parseType ty with
  | none => some (ty, cache)
  | some parsed =>
    match parsed.templateArgs with
    | none => some (ty, cache)
    | some args =>
      match handleSpecialContainers conv cache parsed with
      | none => none
      | some (some r, c2) => some (r, c2)
      | some (none, c2) =>
        match convertArgsList conv c2 args with
        | none => none
        | some (resolvedArgs, c3) =>
          some (parsed.baseType ++ "<" ++ joinSep ", " resolvedArgs ++ ">", c3)

/-- `handleTemplateTypes`: on a type with template arguments, apply the
first template mapping whose base-type portion matches (substituting `$n`
placeholders by the recursively converted arguments), else rebuild the
generic with converted arguments; a thrown error propagates. -/
def handleTemplateTypes (reg : TypeRegistry) (conv : ConvFun) (cache : Cache)
    (ty : String) : Option (String × Cache) :=
  match parseType ty with
  | none => some (ty, cache)
  | some parsed =>
    match parsed.templateArgs with
    | none => some (ty, cache)
    | some args =>
      match reg.templateMappings.find? (fun m => checkTemplateMapping parsed m) with
      | some m => substPlaceholders conv cache args m.replacement 1
      | none =>
        match convertArgsList conv cache args with
        | none => none
        | some (convertedArgs, c2) =>
          some (parsed.baseType ++ "<" ++ joinSep ", " convertedArgs ++ ">", c2)

/-- `handleNamespaceTypes`: substitute or strip a mapped namespace prefix;
with no matching mapping, rewrite `::` to `.` in the namespace. -/
def handleNamespaceTypes (reg : TypeRegistry) (ty : String) : String :=
  match parseType ty with
  | none => ty
  | some parsed =>
    match parsed.nspace with
    | none => ty
    | some ns =>
      if ns = "" then ty
      else
        match reg.namespaceMappings.find? (fun m => ns = m.cppNamespace) with
        | some m =>
          if m.stripNamespace then parsed.baseType
          else m.tsNamespace ++ "." ++ parsed.baseType
        | none => jsReplaceAll ns "::" "." ++ "." ++ parsed.baseType

/-- `TypeConverter.normalizeTypeName`: `cppTypeAnalyzer.normalizeType` with
the plain-text normalization as the falsy fallback. -/
def normalizeTypeNameC (s : String) : String :=
  let n := normalizeType s
  if n = "" then TypeUtils.normalizeTypeName s else n

/-- `performConversion`: clean, then custom rules → template mappings →
namespace mappings → direct lookup → normalized lookup → the cleaned string
itself (or `"any"` when it is empty); a thrown error propagates. -/
def performConversion (reg : TypeRegistry) (conv : ConvFun) (cache : Cache)
    (cppType : String) : Option (String × Cache) :=
  let cleanType := cleanTypeString cppType
  match reg.customRules.find? (fun rule => rule.condition cleanType) with
  | some rule => resolveTemplateTypes conv cache (rule.transform cleanType)
  | none =>
    match handleTemplateTypes reg conv cache cleanType with
    | none => none
    | some (templateResult, c2) =>
      if templateResult ≠ cleanType then resolveTemplateTypes conv c2 templateResult
      else
        let namespaceResult := handleNamespaceTypes reg cleanType
        if namespaceResult ≠ cleanType then resolveTemplateTypes conv c2 namespaceResult
        else
          match reg.getType cleanType with
          | some td => some (td.tsType, c2)
          | none =>
            match reg.getType (normalizeTypeNameC cleanType) with
            | some td => some (td.tsType, c2)
            | none => some ((if cleanType = "" then "any" else cleanType), c2)

/-- `TypeConverter.cppToTypeScript`: return the memoized conversion when the
raw input string is cached, else convert and cache.  The cache argument is
the converter's `conversionCache` field made explicit.  `none` models a
TypeError escaping the call; the fuel-0 stub returns a dummy success, so
`none` can only arise from the `handleSpecialContainers` error path. -/
def cppToTypeScript (reg : TypeRegistry) : Nat → Cache → String → Option (String × Cache)
  | 0 => fun cache _ => some ("", cache)
  | fuel + 1 => fun cache cppType =>
    match lookupAssoc cache cppType with
    | some r => some (r, cache)
    | none =>
      match performConversion reg (cppToTypeScript reg fuel) cache cppType with
      | none => none
      | some (result, c2) => some (result, mapSet c2 cppType result)

/-! ### Dependency tracker (`type-dependency-tracker.ts`) -/

/-- `TypeDependency`.  `usageType` is kept as a plain string tag. -/
structure TypeDependency where
  typeName : String
  nspace : Option String := none
  fullName : String
  linkedHref : Option String := none
  sourceLocation : String := ""
  usageType : String := "property"

/-- JS truthiness of `dependency.linkedHref`: present and non-empty. -/
def hrefTruthy (dep : TypeDependency) : Bool :=
  match dep.linkedHref with
  | some h => h ≠ ""
  | none => false

/-- The candidate list of `enrichDependenciesWithLinks`, in source order:
full name as-is, bare type name, `KWin::`-prefixed bare name, reconstructed
`namespace::typeName` (the template literal interpolates the *string*
`"undefined"` when the namespace is absent), the full name with every `.`
converted to `::`, and the full name with every `KWin.` converted to
`KWin::`; `.filter(Boolean)` drops empty strings. -/
def depCandidates (dep : TypeDependency) : List String :=
  ([dep.fullName,
    dep.typeName,
    "KWin::" ++ dep.typeName,
    (match dep.nspace with | some ns => ns | none => "undefined") ++ "::" ++ dep.typeName,
    jsReplaceAll dep.fullName "." "::",
    jsReplaceAll dep.fullName "KWin." "KWin::"]).filter (fun c => c ≠ "")

/-- The candidate loop: the first candidate with a truthy map entry wins
(`if (link)` skips empty-string targets). -/
def firstHit (links : List (String × String)) : List String → Option String
  | [] => none
  | c :: cs =>
    match lookupAssoc links c with
    | some l => if l = "" then firstHit links cs else some l
    | none => firstHit links cs

/-- `enrichDependenciesWithLinks` for one dependency: assign `linkedHref`
from the first matching candidate; leave the dependency untouched when no
candidate matches. -/
def enrichOne (docLinks : List (String × String)) (dep : TypeDependency) : TypeDependency :=
  match firstHit docLinks (depCandidates dep) with
  | some link => { dep with linkedHref := some link }
  | none => dep

/-- `enrichDependenciesWithLinks` over the extracted dependency list
(`docLinks` stands for `extractTypeLinksFromDocument(sourceDoc)`). -/
def enrichDependenciesWithLinks (docLinks : List (String × String))
    (deps : List TypeDependency) : List TypeDependency :=
  deps.map (enrichOne docLinks)

/-! ### Resolution service (`document-parser.ts`, `TypeDependencyService`)

The service drives a bounded fixpoint loop over a shared repository.  The
environment abstracts its I/O collaborators: `extract` stands for
`tracker.extractTypeDependencies` on a class (dependencies already enriched
with links; the mock-document re-parse fallback is folded into it), `fetch`
for `documentParser.parseFromFile`/`parseFromUrl` (`.error msg` = a thrown
and caught error with message `msg`, `.ok none` = a document without
`classInfo`), and `isBuiltin` for the registry-driven
`tracker.isBuiltinType`.  `Promise.allSettled` of one round is modelled by
settling the pending list in insertion order (failure isolation is
intrinsic: each resolution only folds its own outcome into the state). -/

structure RClass where
  fullName : String

structure ResolutionEnv where
  extract : String → List TypeDependency
  fetch : String → Except String (Option RClass)
  isBuiltin : String → Bool

structure ResolutionState where
  pendingResolutions : List (String × TypeDependency) := []
  processedClasses : List String := []
  circularDependencies : List String := []
  maxDepthReached : Nat := 0
  resolvedTypesCount : Nat := 0
  unresolvedTypesCount : Nat := 0
  repoClasses : List (String × RClass) := []
  repoNamespaceFiles : List String := []
  trackerParsedClasses : List String := []
  trackerVisitedTypes : List String := []
  trackerPendingTypes : List String := []
  sourceDocuments : List String := []

/-- `String.prototype.includes`. -/
def hasInfix : List Char → List Char → Bool
  | [], p => p.isEmpty
  | c :: t, p => p.isPrefixOf (c :: t) || hasInfix t p

def containsStr (s pat : String) : Bool := hasInfix s.data pat.data

/-- Add to a set-like list (no duplicates). -/
def setAdd (l : List String) (x : String) : List String :=
  if l.contains x then l else l ++ [x]

/-- `tracker.canResolveType`: a truthy link, not visited, and not in the
tracker's `pendingTypes` cycle set (neither tracker set is ever written
anywhere in the repository, so both stay empty). -/
def canResolveType (st : ResolutionState) (dep : TypeDependency) : Bool :=
  hrefTruthy dep
    && !st.trackerVisitedTypes.contains dep.fullName
    && !st.trackerPendingTypes.contains dep.fullName

/-- `TypeDependencyService.shouldResolveType`. -/
def shouldResolveType (st : ResolutionState) (dep : TypeDependency) : Bool :=
  canResolveType st dep && !st.circularDependencies.contains dep.fullName

/-- `tracker.getUnresolvedDependencies`: keep dependencies that are not
already parsed, not visited, not builtin, and carry a link. -/
def getUnresolvedDependencies (env : ResolutionEnv) (st : ResolutionState)
    (deps : List TypeDependency) : List TypeDependency :=
  deps.filter (fun d =>
    !st.trackerParsedClasses.contains d.fullName
      && !st.trackerVisitedTypes.contains d.fullName
      && !env.isBuiltin d.fullName
      && hrefTruthy d)

/-- `TypeDependencyService.resolveTypeDependency`.  The Bool result records
whether a document fetch was performed (the claim's "returns without
fetching").  A thrown fetch error is caught: the unresolved counter is
bumped and, when the message contains `"circular"`, the dependency's full
name joins the persistent circular set. -/
def resolveTypeDependency (env : ResolutionEnv) (st : ResolutionState)
    (dep : TypeDependency) : ResolutionState × Bool :=
  if st.circularDependencies.contains dep.fullName then (st, false)
  else
    let sourceUrl := match dep.linkedHref with
      | some h => if h = "" then dep.sourceLocation else h
      | none => dep.sourceLocation
    if sourceUrl = "" then
      ({ st with unresolvedTypesCount := st.unresolvedTypesCount + 1 }, false)
    else
      let fullPath := if jsStartsWith sourceUrl "html/" then sourceUrl else "html/" ++ sourceUrl
      let st := if containsStr fullPath "namespace_" && jsEndsWith fullPath ".html" then
          { st with repoNamespaceFiles := setAdd st.repoNamespaceFiles fullPath }
        else st
      match env.fetch fullPath with
      | .ok (some cls) =>
        ({ st with
            sourceDocuments := setAdd st.sourceDocuments cls.fullName,
            repoClasses := mapSet st.repoClasses cls.fullName cls,
            trackerParsedClasses := setAdd st.trackerParsedClasses cls.fullName,
            resolvedTypesCount := st.resolvedTypesCount + 1 }, true)
      | .ok none =>
        ({ st with unresolvedTypesCount := st.unresolvedTypesCount + 1 }, true)
      | .error msg =>
        ({ st with
            unresolvedTypesCount := st.unresolvedTypesCount + 1,
            circularDependencies :=
              if containsStr msg "circular" then
                setAdd st.circularDependencies dep.fullName
              else st.circularDependencies }, true)

/-- `lodash.groupBy(deps, "fullName")` with `Object.entries`: groups keyed
by first occurrence, each group in extraction order. -/
def groupByFullName (deps : List TypeDependency) : List (String × List TypeDependency) :=
  deps.foldl (fun acc d =>
    if (acc.find? (fun g => g.1 = d.fullName)).isSome then
      acc.map (fun g => if g.1 = d.fullName then (g.1, g.2 ++ [d]) else g)
    else acc ++ [(d.fullName, [d])]) []

def pendingHas (st : ResolutionState) (name : String) : Bool :=
  (st.pendingResolutions.find? (fun e => e.1 = name)).isSome

/-- `TypeDependencyService.discoverNewDependencies`: extract dependencies of
every not-yet-processed repository class, group them by full name, and for
each group whose representative passes `shouldResolveType`, schedule every
unresolved linked dependency that is not already pending. -/
def discoverNewDependencies (env : ResolutionEnv) (st : ResolutionState) : ResolutionState :=
  let stP := st.repoClasses.foldl (fun s entry =>
      if s.1.processedClasses.contains entry.1 then s
      else ({ s.1 with processedClasses := s.1.processedClasses ++ [entry.1] },
            s.2 ++ env.extract entry.1)) (st, [])
  let grouped := groupByFullName stP.2
  grouped.foldl (fun s g =>
      match g.2 with
      | [] => s
      | first :: _ =>
        if !pendingHas s g.1 && shouldResolveType s first then
          (getUnresolvedDependencies env s g.2).foldl (fun s2 dep =>
            if !pendingHas s2 dep.fullName && hrefTruthy dep then
              { s2 with pendingResolutions := s2.pendingResolutions ++ [(dep.fullName, dep)] }
            else s2) s
        else s) stP.1

/-- Settle one round of pending resolutions in insertion order. -/
def settleRound (env : ResolutionEnv) (st : ResolutionState)
    (pending : List (String × TypeDependency)) : ResolutionState :=
  pending.foldl (fun s e => (resolveTypeDependency env s e.2).1) st

/-- The `while` loop of `resolveAllDependencies` (`maxIterations = 50`).
Each pass: settle all pending work, clear the pending map, re-discover; stop
("No new dependencies discovered") when the newly scheduled pending count
equals the pre-round count, else advance the iteration counter and the
maximum-depth statistic.  The Bool of the result records the early break.
Fuel is structural and, at `51`, never exhausts before the cap. -/
def loopGo (env : ResolutionEnv) : Nat → ResolutionState → Nat → ResolutionState × Nat × Bool
  | 0, st, iter => (st, iter, false)
  | fuel + 1, st, iter =>
    if 0 < st.pendingResolutions.length ∧ iter < 50 then
      let pendingCount := st.pendingResolutions.length
      let st1 := settleRound env st st.pendingResolutions
      let st2 := { st1 with pendingResolutions := [] }
      let st3 := discoverNewDependencies env st2
      if st3.pendingResolutions.length = pendingCount then (st3, iter, true)
      else
        loopGo env fuel
          { st3 with maxDepthReached := max st3.maxDepthReached (iter + 1) } (iter + 1)
    else (st, iter, false)

structure ResolutionOutcome where
  state : ResolutionState
  iterations : Nat
  stoppedNoNew : Bool
  capWarning : Bool

/-- `TypeDependencyService.resolveAllDependencies`: run the loop from
iteration 0; afterwards the cap warning is logged iff `iteration >=
maxIterations`. -/
def resolveAllDependencies (env : ResolutionEnv) (st0 : ResolutionState) : ResolutionOutcome :=
  let r := loopGo env 51 st0 0
  { state := r.1, iterations := r.2.1, stoppedNoNew := r.2.2,
    capWarning := decide (r.2.1 ≥ 50) }

structure TypeResolutionStats where
  resolvedTypes : Nat
  unresolvedTypes : Nat
  circulardependencies : Nat
  maxDepth : Nat

/-- `TypeDependencyService.getStats`. -/
def getStats (st : ResolutionState) : TypeResolutionStats :=
  { resolvedTypes := st.resolvedTypesCount,
    unresolvedTypes := st.unresolvedTypesCount,
    circulardependencies := st.circularDependencies.length,
    maxDepth := st.maxDepthReached }

/-! ### The mutual-reference scenario (claims C2 and C3)

Two classes `A` and `B`, each referencing the other through a discoverable
link.  The session is seeded the way the pipeline does it: the root class
`A` is already in the repository and its extracted dependency on `B` is
pending (`extractDependenciesFromDocument`); both fetches succeed. -/

def depOnB : TypeDependency :=
  { typeName := "B", fullName := "B", linkedHref := some "b.html", sourceLocation := "a.html" }

def depOnA : TypeDependency :=
  { typeName := "A", fullName := "A", linkedHref := some "a.html", sourceLocation := "b.html" }

def clsA : RClass := { fullName := "A" }

def clsB : RClass := { fullName := "B" }

def envAB : ResolutionEnv :=
  { extract := fun n => if n = "A" then [depOnB] else if n = "B" then [depOnA] else [],
    fetch := fun path =>
      if path = "html/a.html" then .ok (some clsA)
      else if path = "html/b.html" then .ok (some clsB)
      else .ok none,
    isBuiltin := fun _ => false }

def stAB : ResolutionState :=
  { pendingResolutions := [("B", depOnB)], repoClasses := [("A", clsA)] }

/-! ### Rendered-token infrastructure for the normalization roundtrip (C4)

`Rend p ts` says the token list `ts` is the canonical token rendering of the
parsed type `p`, with well-formed identifier images.  It captures exactly
what the parser guarantees about its own output: the `fullName` field is
`buildTypeFullName` of the parts, the namespace is the `::`-join of good
identifiers, and every template argument is itself renderable. -/

/-- A well-formed Identifier image: non-empty, an identifier-start head, all
word characters, and not beginning with `const` (the lexer would have
emitted a Const token there). -/
def goodIdentL : List Char → Bool
  | [] => false
  | c :: cs => isIdentStart c && (c :: cs).all isIdentChar && !constChars.isPrefixOf (c :: cs)

/-- Token images joined with a space after each comma — the shape of every
`fullName` (whose argument lists are joined with `", "`). -/
def spacedData : List Tok → List Char
  | [] => []
  | t :: ts => (tokImage t).data ++ (if t = Tok.comma then [' '] else []) ++ spacedData ts

/-- Total image length of a token list (fuel bookkeeping). -/
def sumImages : List Tok → Nat
  | [] => 0
  | t :: ts => (tokImage t).data.length + sumImages ts

/-- Scan of the angle-bracket discipline: thread the relative depth; a `>`
or a comma at relative depth 0 is an exposed event (`none`). -/
def sliceRun : List Tok → Nat → Option Nat
  | [], d => some d
  | t :: ts, d =>
    if t = Tok.lAngle then sliceRun ts (d + 1)
    else if t = Tok.rAngle then (match d with | 0 => none | e + 1 => sliceRun ts e)
    else if t = Tok.comma then (if d = 0 then none else sliceRun ts d)
    else sliceRun ts d

/-- Tokens whose image begins with a word character. -/
def identish : Tok → Bool
  | .ident _ => true
  | .constTok => true
  | _ => false

def goodTok : Tok → Bool
  | .ident w => goodIdentL w.data
  | .constTok => false
  | _ => true

/-- Lexer-safe token list: every token image is well formed and no
Identifier is immediately followed by a word-leading image (which maximal
munch would merge). -/
def safeToks : List Tok → Bool
  | [] => true
  | [t] => goodTok t
  | t :: t2 :: ts => goodTok t && (!identish t || !identish t2) && safeToks (t2 :: ts)

/-- Tokens of a qualified name `p1::p2::…::b`. -/
def qualToks (parts : List String) (b : String) : List Tok :=
  parts.foldr (fun w rest => Tok.ident w :: Tok.scope :: rest) [Tok.ident b]

/-- Tokens of a comma-separated argument list followed by the closing `>`. -/
def argsToks : List (List Tok) → List Tok
  | [] => [Tok.rAngle]
  | [t] => t ++ [Tok.rAngle]
  | t :: t2 :: rest => t ++ Tok.comma :: argsToks (t2 :: rest)

/-- The angle-bracket section: present only when `templateArgs` is a
non-empty list (mirroring `buildFullName`). -/
def angleSect (targs : Option (List ParsedType)) (tss : List (List Tok)) : List Tok :=
  match targs with
  | some (_ :: _) => Tok.lAngle :: argsToks tss
  | _ => []

def arrSect (arr : Bool) : List Tok :=
  if arr then [Tok.lBracket, Tok.rBracket] else []

/-- Token images joined, optionally (`sp`) with a space after each comma:
`imgData false` is the `parseTypeFromTokens` rejoin, `imgData true` the
shape of a `fullName`. -/
def imgData : Bool → List Tok → List Char
  | _, [] => []
  | sp, t :: ts =>
    (tokImage t).data ++ (if sp && t = Tok.comma then [' '] else []) ++ imgData sp ts

/-- The character after a lexed identifier must not extend it. -/
def restHeadSafe : List Char → Bool
  | [] => true
  | c :: _ => !isIdentChar c

def targsMatch : Option (List ParsedType) → List (ParsedType × List Tok) → Prop
  | none, prs => prs = []
  | some l, prs => prs.map Prod.fst = l

inductive Rend : ParsedType → List Tok → Prop where
  | mk (b : String) (parts : List String) (targs : Option (List ParsedType))
       (prs : List (ParsedType × List Tok)) (arr : Bool) (c pt rf : Bool)
       (hb : goodIdentL b.data = true)
       (hparts : ∀ w ∈ parts, goodIdentL w.data = true)
       (hmatch : targsMatch targs prs)
       (hargs : ∀ pr ∈ prs, Rend pr.1 pr.2) :
      Rend (ParsedType.mk b (nsOf parts) targs c pt rf
              (buildTypeFullName b (nsOf parts) targs arr))
           (qualToks parts b ++ angleSect targs (prs.map Prod.snd) ++ arrSect arr)

/-! ### Concrete registries and scenario data for the claims -/

/-- Claim C6 scenario: `int → number`. -/
def intDef : TypeDefinition := { name := "int", tsType := "number", category := "primitive" }

/-- Claim C6 scenario: the template-substitution rule. -/
def containerMapping : TemplateMapping := { pattern := "^Container<(.+)>$", replacement := "$1[]" }

def regC6 : TypeRegistry :=
  TypeRegistry.loadFromConfig {}
    { mappings := [intDef], templateMappings := [containerMapping],
      namespaceMappings := [], customRules := [] }

/-- Claim C7 scenario: `Foo → Bar` with `stripNamespace = false`. -/
def regC7 : TypeRegistry :=
  TypeRegistry.loadFromConfig {}
    { mappings := [], templateMappings := [],
      namespaceMappings := [{ cppNamespace := "Foo", tsNamespace := "Bar", stripNamespace := false }],
      customRules := [] }

/-- Claim C7 scenario: `Foo → Bar` with `stripNamespace = true`. -/
def regC7strip : TypeRegistry :=
  TypeRegistry.loadFromConfig {}
    { mappings := [], templateMappings := [],
      namespaceMappings := [{ cppNamespace := "Foo", tsNamespace := "Bar", stripNamespace := true }],
      customRules := [] }

/-- Claim C8 scenario: a template mapping whose replacement feeds the
resolver the literal `Array<>`, which re-parses with an empty (JS-truthy)
template-argument list. -/
def regC8 : TypeRegistry :=
  TypeRegistry.loadFromConfig {}
    { mappings := [], templateMappings := [{ pattern := "Foo", replacement := "Array<>" }],
      namespaceMappings := [], customRules := [] }

/-- Claim C1 scenario: a custom rule matching every type. -/
def alwaysXRule : TypeConversionRule :=
  { name := "always-x", condition := fun _ => true, transform := fun _ => "X", priority := 0 }

def regEmptyC1 : TypeRegistry := {}

def regMutC1 : TypeRegistry := regEmptyC1.addCustomRule alwaysXRule

/-- Claim C9 counterexample: a dependency whose dotted full name matches a
discovered link only through the sixth candidate (`KWin.` → `KWin::`). -/
def dep9 : TypeDependency := { typeName := "B", fullName := "KWin.A.B", linkedHref := none }

def links9 : List (String × String) := [("KWin::A.B", "x.html")]

/-- Claim C3 witness data: a state whose circular set holds `"X"`. -/
def stCirc : ResolutionState := { circularDependencies := ["X"] }

def depX : TypeDependency := { typeName := "X", fullName := "X", linkedHref := some "y.html" }

/-! ## Theorems -/

/-- C5: generic-argument splitting respects bracket nesting — parsing
`Outer<A, Inner<B, C>>` produces exactly the two top-level template
arguments `A` and `Inner<B, C>` (not four), and a comma separates arguments
only at nesting depth 1. -/
theorem c5_nested_template_argument_split :
    (parseType "Outer<A, Inner<B, C>>").map
        (fun p => (p.fullName, p.templateArgs.map (List.map ParsedType.fullName)))
      = some ("Outer<A, Inner<B, C>>", some ["A", "Inner<B, C>"]) ∧
    (∀ t d, isArgumentSeparator t d = (t = Tok.comma && d = 1)) :=
  ⟨rfl, fun _ _ => rfl⟩

/-- C6: with the registry seeded with `int → number` and the template rule
`^Container<(.+)>$ → $1[]`, converting `Container<int>` yields exactly
`number[]`. -/
theorem c6_container_template_conversion :
    (cppToTypeScript regC6 10 [] "Container<int>").map Prod.fst = some "number[]" := rfl

/-- C7: with the namespace rule `Foo → Bar`, converting `Foo::Widget` yields
`Bar.Widget` when `stripNamespace` is false and bare `Widget` when it is
true. -/
theorem c7_namespace_mapping_conversion :
    (cppToTypeScript regC7 10 [] "Foo::Widget").map Prod.fst = some "Bar.Widget" ∧
    (cppToTypeScript regC7strip 10 [] "Foo::Widget").map Prod.fst = some "Widget" :=
  ⟨rfl, rfl⟩

/-- C1: the conversion memo cache survives a registry mutation.  Converting
`"int"` against the empty registry succeeds and leaves exactly
`[("int", "int")]` in the memo cache; after `addCustomRule` with an
always-matching rule transforming everything to `"X"`, a `cppToTypeScript`
call that reuses that cache still returns the stale `"int"`, although a
fresh conversion under the mutated registry returns `"X"` (the mutation
cleared only the registry-internal `cacheMap`).  This exhibits the
code-level failure of the claimed invalidation. -/
theorem c1_stale_cache_after_registry_mutation :
    cppToTypeScript regEmptyC1 5 [] "int" = some ("int", [("int", "int")]) ∧
    (cppToTypeScript regMutC1 5 [("int", "int")] "int").map Prod.fst = some "int" ∧
    (cppToTypeScript regMutC1 5 [] "int").map Prod.fst = some "X" ∧
    regMutC1.cacheMap = [] ∧
    ("int" : String) ≠ "X" :=
  ⟨rfl, rfl, rfl, rfl, by decide⟩

/-- C2 counterexample: in the mutual-reference session the loop stops via
the equal-count break after iteration 0 with a *non-empty* newly-scheduled
pending set and no cap warning — refuting "terminates exactly when the
newly-scheduled pending set is empty after a round, or when the cap of 50
is reached". -/
theorem c2_loop_stops_with_nonempty_pending :
    (resolveAllDependencies envAB stAB).stoppedNoNew = true ∧
    (resolveAllDependencies envAB stAB).iterations = 0 ∧
    (resolveAllDependencies envAB stAB).state.pendingResolutions.length = 1 ∧
    (resolveAllDependencies envAB stAB).capWarning = false :=
  ⟨rfl, rfl, rfl, rfl⟩

/-- Exit characterization of the bounded resolution loop, for any fuel at
least `50 - iteration`. -/
theorem loopGo_exit (env : ResolutionEnv) :
    ∀ (fuel : Nat) (st : ResolutionState) (iter : Nat), iter ≤ 50 → 50 < fuel + iter →
      (loopGo env fuel st iter).2.1 ≤ 50 ∧
      ((loopGo env fuel st iter).2.2 = true →
        (loopGo env fuel st iter).1.pendingResolutions ≠ [] ∧
        (loopGo env fuel st iter).2.1 < 50) ∧
      ((loopGo env fuel st iter).2.2 = false →
        (loopGo env fuel st iter).1.pendingResolutions = [] ∨
        (loopGo env fuel st iter).2.1 = 50) := by
  intro fuel
  induction fuel with
  | zero => intro st iter h1 h2; exact absurd h2 (by omega)
  | succ fuel ih =>
    intro st iter h1 h2
    simp only [loopGo]
    by_cases hg : 0 < st.pendingResolutions.length ∧ iter < 50
    · rw [if_pos hg]
      set st3 := discoverNewDependencies env
        { settleRound env st st.pendingResolutions with pendingResolutions := [] } with hst3
      by_cases hbrk : st3.pendingResolutions.length = st.pendingResolutions.length
      · rw [if_pos hbrk]
        refine ⟨le_of_lt hg.2, fun _ => ⟨?_, hg.2⟩,
          fun hfalse => Bool.noConfusion (hfalse : true = false)⟩
        intro hnil
        have hnil2 : st3.pendingResolutions = [] := hnil
        rw [hnil2] at hbrk
        simp at hbrk
        omega
      · rw [if_neg hbrk]
        exact ih _ (iter + 1) (by omega) (by omega)
    · rw [if_neg hg]
      refine ⟨h1, fun htrue => Bool.noConfusion (htrue : false = true), fun _ => ?_⟩
      rcases Nat.lt_or_ge 0 st.pendingResolutions.length with hp | hp
      · right
        have hnot : ¬ iter < 50 := fun hlt => hg ⟨hp, hlt⟩
        show iter = 50
        omega
      · left
        show st.pendingResolutions = []
        exact List.length_eq_zero.mp (by omega)

/-- C2 amended: the resolution loop always terminates within the 50-round
cap; it stops either via the "no new dependencies" break — which fires when
the post-discovery pending count equals the pre-round count, hence possibly
with a non-empty newly-scheduled set — or because the pending set became
empty, or at the cap; the cap warning is reported exactly when the cap was
reached, and the statistics of the final state remain available. -/
theorem c2_amended_loop_termination :
    ∀ (env : ResolutionEnv) (st0 : ResolutionState),
      (resolveAllDependencies env st0).iterations ≤ 50 ∧
      ((resolveAllDependencies env st0).stoppedNoNew = true →
        (resolveAllDependencies env st0).state.pendingResolutions ≠ [] ∧
        (resolveAllDependencies env st0).iterations < 50 ∧
        (resolveAllDependencies env st0).capWarning = false) ∧
      ((resolveAllDependencies env st0).stoppedNoNew = false →
        (resolveAllDependencies env st0).state.pendingResolutions = [] ∨
        ((resolveAllDependencies env st0).iterations = 50 ∧
          (resolveAllDependencies env st0).capWarning = true)) ∧
      ((resolveAllDependencies env st0).capWarning = true ↔
        (resolveAllDependencies env st0).iterations = 50) := by
  intro env st0
  have h := loopGo_exit env 51 st0 0 (by omega) (by omega)
  refine ⟨h.1, fun ht => ⟨(h.2.1 ht).1, (h.2.1 ht).2, ?_⟩, fun hf => ?_, ?_, ?_⟩
  · have hlt := (h.2.1 ht).2
    show decide ((loopGo env 51 st0 0).2.1 ≥ 50) = false
    exact decide_eq_false (by omega)
  · rcases h.2.2 hf with hnil | hcap
    · exact Or.inl hnil
    · refine Or.inr ⟨hcap, ?_⟩
      show decide ((loopGo env 51 st0 0).2.1 ≥ 50) = true
      exact decide_eq_true (by omega)
  · intro hw
    have h1 := h.1
    have hw2 : (loopGo env 51 st0 0).2.1 ≥ 50 := of_decide_eq_true hw
    show (loopGo env 51 st0 0).2.1 = 50
    omega
  · intro hi
    have hi2 : (loopGo env 51 st0 0).2.1 = 50 := hi
    show decide ((loopGo env 51 st0 0).2.1 ≥ 50) = true
    exact decide_eq_true (by omega)

/-- C2 witness: instantiating the amended loop theorem on the concrete
mutual-reference session discharges the break-case hypothesis. -/
theorem c2_amended_loop_termination_witness :
    (resolveAllDependencies envAB stAB).state.pendingResolutions ≠ [] ∧
    (resolveAllDependencies envAB stAB).iterations < 50 :=
  ⟨((c2_amended_loop_termination envAB stAB).2.1 rfl).1,
   ((c2_amended_loop_termination envAB stAB).2.1 rfl).2.1⟩

/-- C3 counterexample: in the session over mutually-referencing classes `A`
and `B` (each with a discoverable link to the other, both fetches
succeeding) the session terminates but the circular-reference statistic is
0, not 1 — nothing in the repository produces a resolution error whose
message contains "circular", so the circular set never grows. -/
theorem c3_mutual_reference_marks_no_cycle :
    (getStats (resolveAllDependencies envAB stAB).state).circulardependencies = 0 ∧
    (getStats (resolveAllDependencies envAB stAB).state).circulardependencies ≠ 1 ∧
    (resolveAllDependencies envAB stAB).iterations ≤ 50 :=
  ⟨rfl, by decide, by decide⟩

/-- C3 amended: once a full name is in the persistent circular set, every
later `shouldResolveType` check rejects it and every later
`resolveTypeDependency` call returns immediately without fetching and
without changing the state; in the mutual-reference A/B session the loop
terminates and the circular-reference count is 0 (the set grows only on a
caught resolution error whose message contains "circular", which no code
path of the repository produces). -/
theorem c3_amended_circular_set_blocks :
    (∀ (st : ResolutionState) (dep : TypeDependency),
        st.circularDependencies.contains dep.fullName = true →
        shouldResolveType st dep = false) ∧
    (∀ (env : ResolutionEnv) (st : ResolutionState) (dep : TypeDependency),
        st.circularDependencies.contains dep.fullName = true →
        resolveTypeDependency env st dep = (st, false)) ∧
    ((resolveAllDependencies envAB stAB).iterations ≤ 50 ∧
      (getStats (resolveAllDependencies envAB stAB).state).circulardependencies = 0) := by
  refine ⟨?_, ?_, by decide, rfl⟩
  · intro st dep h
    simp only [shouldResolveType, h, Bool.not_true, Bool.and_false]
  · intro env st dep h
    unfold resolveTypeDependency
    rw [if_pos h]

/-- C3 witness: the blocking clauses applied to a concrete state whose
circular set holds the dependency's full name. -/
theorem c3_amended_circular_set_blocks_witness :
    shouldResolveType stCirc depX = false ∧
    resolveTypeDependency envAB stCirc depX = (stCirc, false) :=
  ⟨c3_amended_circular_set_blocks.1 stCirc depX (by decide),
   c3_amended_circular_set_blocks.2.1 envAB stCirc depX (by decide)⟩

/-- C4 counterexample: for the syntactically valid signature `int*`,
normalization returns `int*` but re-parsing that normalized form yields a
Parsed Type whose `fullName` is `int` — `fullName` never carries the
pointer marker — so `parse(normalize(t)).fullName = normalize(t)` fails. -/
theorem c4_normalized_pointer_fullname_mismatch :
    normalizeType "int*" = "int*" ∧
    (parseType (normalizeType "int*")).map ParsedType.fullName = some "int" ∧
    ("int" : String) ≠ "int*" :=
  ⟨rfl, rfl, by decide⟩

/-- C9 counterexample: with the discovered-link map containing only
`KWin::A.B` and a dependency with full name `KWin.A.B` (bare name `B`, no
namespace), all five candidates of the claim miss, yet `linkedHref` is
assigned — through the sixth candidate of the code, which rewrites only the
`KWin.` prefix. -/
theorem c9_sixth_candidate_assigns_link :
    (enrichOne links9 dep9).linkedHref = some "x.html" ∧
    lookupAssoc links9 dep9.fullName = none ∧
    lookupAssoc links9 dep9.typeName = none ∧
    lookupAssoc links9 ("KWin::" ++ dep9.typeName) = none ∧
    lookupAssoc links9 ("undefined::" ++ dep9.typeName) = none ∧
    lookupAssoc links9 (jsReplaceAll dep9.fullName "." "::") = none :=
  ⟨rfl, rfl, rfl, rfl, rfl, rfl⟩

/-- The candidate loop misses exactly when every candidate misses. -/
theorem firstHit_eq_none (links : List (String × String)) :
    ∀ (cs : List String),
      (∀ c ∈ cs, lookupAssoc links c = none) → firstHit links cs = none := by
  intro cs
  induction cs with
  | nil => intro _; rfl
  | cons c cs ih =>
    intro h
    have hc := h c (by simp)
    simp only [firstHit, hc]
    exact ih (fun x hx => h x (by simp [hx]))

/-- C9 amended: link enrichment tries the candidate keys in the fixed source
order — full name as-is, bare type name, `KWin::`-prefixed bare name,
reconstructed `namespace::typeName` (the literal prefix `undefined::` when
the namespace is absent), the full name with every `.` converted to `::`,
and finally the full name with only `KWin.` prefixes converted to `KWin::`
— assigning `linkedHref` from the first candidate present in the map; when
none of the six candidates is present, the dependency is left unchanged. -/
theorem c9_amended_candidate_priority :
    ∀ (links : List (String × String)) (dep : TypeDependency),
      depCandidates dep =
        ([dep.fullName,
          dep.typeName,
          "KWin::" ++ dep.typeName,
          (match dep.nspace with | some ns => ns | none => "undefined") ++ "::" ++ dep.typeName,
          jsReplaceAll dep.fullName "." "::",
          jsReplaceAll dep.fullName "KWin." "KWin::"]).filter (fun c => c ≠ "") ∧
      (∀ l, firstHit links (depCandidates dep) = some l →
        enrichOne links dep = { dep with linkedHref := some l }) ∧
      ((∀ c ∈ depCandidates dep, lookupAssoc links c = none) → enrichOne links dep = dep) ∧
      enrichDependenciesWithLinks links [dep] = [enrichOne links dep] := by
  intro links dep
  refine ⟨rfl, fun l hl => ?_, fun hmiss => ?_, rfl⟩
  · simp [enrichOne, hl]
  · simp [enrichOne, firstHit_eq_none links (depCandidates dep) hmiss]

/-- C9 witness: the amended priority theorem applied to the concrete map and
dependency of the counterexample scenario. -/
theorem c9_amended_candidate_priority_witness :
    enrichOne links9 dep9 = { dep9 with linkedHref := some "x.html" } :=
  (c9_amended_candidate_priority links9 dep9).2.1 "x.html" rfl

/-- The trailing-token loop records presence of `*` and `&`, regardless of
count, order, or interleaved foreign tokens. -/
theorem trailingFlagsGo_eq :
    ∀ (ts : List Tok) (p r : Bool),
      trailingFlagsGo p r ts = (p || ts.contains Tok.asterisk, r || ts.contains Tok.ampersand) := by
  intro ts
  induction ts with
  | nil => intro p r; simp [trailingFlagsGo]
  | cons t ts ih =>
    intro p r
    by_cases ha : t = Tok.asterisk
    · subst ha
      have h2 : (Tok.ampersand == Tok.asterisk) = false := by decide
      simp [trailingFlagsGo, ih, List.contains_cons, h2]
    · by_cases hb : t = Tok.ampersand
      · subst hb
        have h1 : (Tok.asterisk == Tok.ampersand) = false := by decide
        simp [trailingFlagsGo, ih, List.contains_cons, h1]
      · have h1 : decide (Tok.asterisk = t) = false := decide_eq_false (fun h => ha h.symm)
        have h2 : decide (Tok.ampersand = t) = false := decide_eq_false (fun h => hb h.symm)
        simp [trailingFlagsGo, ha, hb, ih, List.contains_cons, h1, h2]

/-- C10: whenever the qualified-name/template/array phase succeeds, the
whole parse succeeds no matter what trails it: every remaining token is
consumed, `*` tokens set `isPointer` and `&` tokens set `isReference`
(presence only), any other trailing token is silently skipped, and the
result is the type parsed from the leading portion (with the recorded
leading-const flag). -/
theorem c10_trailing_tokens_absorbed :
    ∀ (pf : List Tok → Option ParsedType) (toks : List Tok) (ty : ParsedType) (rest : List Tok),
      parseTypeExpressionT pf (stripConstTok toks).2 = some (ty, rest) →
      parseTokensT pf toks =
        some (ParsedType.mk ty.baseType ty.nspace ty.templateArgs
          (stripConstTok toks).1 (rest.contains Tok.asterisk) (rest.contains Tok.ampersand)
          ty.fullName) := by
  intro pf toks ty rest h
  unfold parseTokensT
  rw [show stripConstTok toks = ((stripConstTok toks).1, (stripConstTok toks).2) from rfl]
  simp only [h, trailingFlagsGo_eq, Bool.false_or]

/-- C10 witness: `Foo bar` — the stray trailing identifier is skipped and
the parse returns the type of the leading `Foo`. -/
theorem c10_trailing_tokens_absorbed_witness :
    parseTokensT (fun _ => none) [Tok.ident "Foo", Tok.ident "bar"] =
      some (ParsedType.mk "Foo" none none false false false "Foo") :=
  c10_trailing_tokens_absorbed (fun _ => none) [Tok.ident "Foo", Tok.ident "bar"]
    (ParsedType.mk "Foo" none none false false false "Foo") [Tok.ident "bar"] rfl

/-- C8: the conversion CAN throw.  With a registry holding only the template
mapping `Foo → Array<>` (no custom rules), converting `Foo<int>` rewrites to
the literal `Array<>`, which `resolveTemplateTypes` re-parses into a type
with an *empty* template-argument list; the empty array is JS-truthy, so
`handleSpecialContainers` dereferences `parsed.templateArgs[0]` of an empty
array and the TypeError escapes `cppToTypeScript` (modelled as `none`) —
refuting "for every input string, cppToTypeScript never throws" and the
graceful degradation the claim describes for this input.  The second and
third conjuncts pin down the path: `Array<>` parses with `templateArgs`
equal to `some []`, and the same session with a benign replacement
(`Bar<$1>`) completes normally, so the failure is the container
dereference, not the pipeline. -/
theorem c8_special_container_deref_throws :
    cppToTypeScript regC8 10 [] "Foo<int>" = none ∧
    (parseType "Array<>").map ParsedType.templateArgs = some (some []) ∧
    (cppToTypeScript
        (TypeRegistry.loadFromConfig {}
          { mappings := [], namespaceMappings := [], customRules := [],
            templateMappings := [{ pattern := "Foo", replacement := "Bar<$1>" }] })
        10 [] "Foo<int>").map Prod.fst = some "Bar<int>" :=
  ⟨rfl, rfl, rfl⟩

/-! ### Lexer lemmas for the roundtrip -/

/-- Length bound for `dropWhile`. -/
theorem dropWhile_len_le (p : Char → Bool) : ∀ l : List Char, (l.dropWhile p).length ≤ l.length := by
  intro l
  induction l with
  | nil => simp
  | cons c cs ih =>
    by_cases h : p c
    · simp only [List.dropWhile_cons, h, if_true, List.length_cons]
      omega
    · simp [List.dropWhile_cons, h]

/-- The lexer fuel is irrelevant once it exceeds the input length. -/
theorem lexGo_irrel : ∀ (f1 f2 : Nat) (cs : List Char), cs.length < f1 → cs.length < f2 →
    lexGo f1 cs = lexGo f2 cs := by
  intro f1
  induction f1 with
  | zero => intro f2 cs h1 _; exact absurd h1 (by omega)
  | succ f1 ih =>
    intro f2 cs h1 h2
    match f2, cs with
    | 0, cs => exact absurd h2 (by omega)
    | f2 + 1, [] => rfl
    | f2 + 1, c :: cs =>
      have h1' : cs.length < f1 := by simp only [List.length_cons] at h1; omega
      have h2' : cs.length < f2 := by simp only [List.length_cons] at h2; omega
      simp only [lexGo]
      by_cases hws : c.isWhitespace = true
      · rw [if_pos hws, if_pos hws]
        exact ih f2 cs h1' h2'
      · rw [if_neg hws, if_neg hws]
        by_cases hct : constChars.isPrefixOf (c :: cs) = true
        · rw [if_pos hct, if_pos hct]
          have hd1 : ((c :: cs).drop 5).length < f1 := by
            simp only [List.length_drop, List.length_cons]; omega
          have hd2 : ((c :: cs).drop 5).length < f2 := by
            simp only [List.length_drop, List.length_cons]; omega
          rw [ih f2 _ hd1 hd2]
        · rw [if_neg hct, if_neg hct]
          by_cases hcol : c = ':'
          · rw [if_pos hcol, if_pos hcol]
            by_cases hh : cs.head? = some ':'
            · rw [if_pos hh, if_pos hh]
              have hl : cs.tail.length ≤ cs.length := by
                cases cs <;> simp
              rw [ih f2 cs.tail (by omega) (by omega)]
            · rw [if_neg hh, if_neg hh]
          · rw [if_neg hcol, if_neg hcol]
            by_cases hdot : c = '.'
            · rw [if_pos hdot, if_pos hdot, ih f2 cs h1' h2']
            · rw [if_neg hdot, if_neg hdot]
              by_cases hlt : c = '<'
              · rw [if_pos hlt, if_pos hlt, ih f2 cs h1' h2']
              · rw [if_neg hlt, if_neg hlt]
                by_cases hgt : c = '>'
                · rw [if_pos hgt, if_pos hgt, ih f2 cs h1' h2']
                · rw [if_neg hgt, if_neg hgt]
                  by_cases hlb : c = '['
                  · rw [if_pos hlb, if_pos hlb, ih f2 cs h1' h2']
                  · rw [if_neg hlb, if_neg hlb]
                    by_cases hrb : c = ']'
                    · rw [if_pos hrb, if_pos hrb, ih f2 cs h1' h2']
                    · rw [if_neg hrb, if_neg hrb]
                      by_cases hcm : c = ','
                      · rw [if_pos hcm, if_pos hcm, ih f2 cs h1' h2']
                      · rw [if_neg hcm, if_neg hcm]
                        by_cases hast : c = '*'
                        · rw [if_pos hast, if_pos hast, ih f2 cs h1' h2']
                        · rw [if_neg hast, if_neg hast]
                          by_cases hamp : c = '&'
                          · rw [if_pos hamp, if_pos hamp, ih f2 cs h1' h2']
                          · rw [if_neg hamp, if_neg hamp]
                            by_cases hid : isIdentStart c = true
                            · rw [if_pos hid, if_pos hid]
                              have hdw : (cs.dropWhile isIdentChar).length ≤ cs.length :=
                                dropWhile_len_le isIdentChar cs
                              rw [ih f2 _ (by omega) (by omega)]
                            · rw [if_neg hid, if_neg hid]

/-- An identifier-start character is not whitespace. -/
theorem identStart_not_ws (c : Char) (h : isIdentStart c = true) : c.isWhitespace = false := by
  by_contra hws
  rw [Bool.not_eq_false] at hws
  simp only [Char.isWhitespace, decide_eq_true_eq, Bool.or_eq_true] at hws
  rcases hws with ((h1 | h1) | h1) | h1 <;> subst h1 <;> exact absurd h (by decide)

/-- An identifier-start character is none of the punctuation characters the
lexer recognizes. -/
theorem identStart_not_punct (c : Char) (h : isIdentStart c = true) :
    c ≠ ':' ∧ c ≠ '.' ∧ c ≠ '<' ∧ c ≠ '>' ∧ c ≠ '[' ∧ c ≠ ']' ∧ c ≠ ',' ∧ c ≠ '*' ∧ c ≠ '&' := by
  refine ⟨?_, ?_, ?_, ?_, ?_, ?_, ?_, ?_, ?_⟩ <;>
    exact fun he => by subst he; exact absurd h (by decide)

theorem identStart_identChar (c : Char) (h : isIdentStart c = true) : isIdentChar c = true := by
  simp only [isIdentStart, Bool.or_eq_true] at h
  simp only [isIdentChar, Bool.or_eq_true, Char.isAlphanum]
  rcases h with h | h
  · exact Or.inl (Or.inl h)
  · exact Or.inr h

/-- `const` cannot match at a position whose previous maximal identifier
does not begin with it, provided the following character cannot extend an
identifier. -/
theorem notPrefix_append (p : List Char) : ∀ (w rest : List Char),
    p.isPrefixOf w = false → (∀ x ∈ p, isIdentChar x = true) → restHeadSafe rest = true →
    p.isPrefixOf (w ++ rest) = false := by
  induction p with
  | nil => intro w rest h _ _; simp [List.isPrefixOf] at h
  | cons a p ih =>
    intro w rest h hp hr
    cases w with
    | nil =>
      cases rest with
      | nil => rfl
      | cons c rest2 =>
        simp only [List.nil_append, List.isPrefixOf]
        have ha := hp a (by simp)
        have hc : isIdentChar c = false := by
          simpa [restHeadSafe] using hr
        have hne : (a == c) = false := by
          rw [beq_eq_false_iff_ne]
          intro he
          rw [← he] at hc
          rw [ha] at hc
          exact Bool.noConfusion hc
        simp [hne]
    | cons b w2 =>
      simp only [List.cons_append, List.isPrefixOf] at h ⊢
      by_cases hab : (a == b) = true
      · rw [hab, Bool.true_and] at h ⊢
        exact ih w2 rest h (fun x hx => hp x (by simp [hx])) hr
      · have hab' : (a == b) = false := by
          revert hab; cases (a == b) <;> simp
        simp [hab']

/-- `takeWhile`/`dropWhile` on a block of satisfying characters followed by
a non-satisfying boundary. -/
theorem takeWhile_all_append (p : Char → Bool) : ∀ (l rest : List Char),
    (∀ x ∈ l, p x = true) → (∀ c, rest.head? = some c → p c = false) →
    (l ++ rest).takeWhile p = l ∧ (l ++ rest).dropWhile p = rest := by
  intro l
  induction l with
  | nil =>
    intro rest _ hrest
    cases rest with
    | nil => simp
    | cons c r =>
      have := hrest c rfl
      simp [List.takeWhile_cons, List.dropWhile_cons, this]
  | cons a l ih =>
    intro rest hall hrest
    have ha := hall a (by simp)
    have ihl := ih rest (fun x hx => hall x (by simp [hx])) hrest
    simp [List.takeWhile_cons, List.dropWhile_cons, ha, ihl.1, ihl.2]

/-- Whitespace characters are skipped by the lexer. -/
theorem lexChars_ws (c : Char) (rest : List Char) (h : c.isWhitespace = true) :
    lexChars (c :: rest) = lexChars rest := by
  unfold lexChars
  simp only [List.length_cons, lexGo]
  rw [if_pos h]

/-- `const` cannot match when the first character already differs. -/
theorem constPrefix_false (c : Char) (h : ('c' == c) = false) (cs : List Char) :
    constChars.isPrefixOf (c :: cs) = false := by
  simp [constChars, List.isPrefixOf, h]

/-- The Const token matches greedily whenever the next five characters
spell `const`, regardless of what follows. -/
theorem lexGo_const (f : Nat) (rest : List Char) :
    lexGo (f + 1) (constChars ++ rest) = (lexGo f rest).map (fun ts => Tok.constTok :: ts) := by
  show lexGo (f + 1) ('c' :: ('o' :: 'n' :: 's' :: 't' :: rest)) = _
  simp only [lexGo]
  rw [if_neg (by decide), if_pos (by simp [constChars, List.isPrefixOf])]
  rfl

theorem lexGo_scope (f : Nat) (cs : List Char) :
    lexGo (f + 1) (':' :: ':' :: cs) = (lexGo f cs).map (fun ts => Tok.scope :: ts) := by
  simp only [lexGo]
  simp [constPrefix_false ':' (by decide)]

theorem lexGo_dot (f : Nat) (cs : List Char) :
    lexGo (f + 1) ('.' :: cs) = (lexGo f cs).map (fun ts => Tok.dot :: ts) := by
  simp only [lexGo]
  simp [constPrefix_false '.' (by decide)]

theorem lexGo_lAngle (f : Nat) (cs : List Char) :
    lexGo (f + 1) ('<' :: cs) = (lexGo f cs).map (fun ts => Tok.lAngle :: ts) := by
  simp only [lexGo]
  simp [constPrefix_false '<' (by decide)]

theorem lexGo_rAngle (f : Nat) (cs : List Char) :
    lexGo (f + 1) ('>' :: cs) = (lexGo f cs).map (fun ts => Tok.rAngle :: ts) := by
  simp only [lexGo]
  simp [constPrefix_false '>' (by decide)]

theorem lexGo_lBracket (f : Nat) (cs : List Char) :
    lexGo (f + 1) ('[' :: cs) = (lexGo f cs).map (fun ts => Tok.lBracket :: ts) := by
  simp only [lexGo]
  simp [constPrefix_false '[' (by decide)]

theorem lexGo_rBracket (f : Nat) (cs : List Char) :
    lexGo (f + 1) (']' :: cs) = (lexGo f cs).map (fun ts => Tok.rBracket :: ts) := by
  simp only [lexGo]
  simp [constPrefix_false ']' (by decide)]

theorem lexGo_comma (f : Nat) (cs : List Char) :
    lexGo (f + 1) (',' :: cs) = (lexGo f cs).map (fun ts => Tok.comma :: ts) := by
  simp only [lexGo]
  simp [constPrefix_false ',' (by decide)]

theorem lexGo_asterisk (f : Nat) (cs : List Char) :
    lexGo (f + 1) ('*' :: cs) = (lexGo f cs).map (fun ts => Tok.asterisk :: ts) := by
  simp only [lexGo]
  simp [constPrefix_false '*' (by decide)]

theorem lexGo_ampersand (f : Nat) (cs : List Char) :
    lexGo (f + 1) ('&' :: cs) = (lexGo f cs).map (fun ts => Tok.ampersand :: ts) := by
  simp only [lexGo]
  simp [constPrefix_false '&' (by decide)]

/-- The Identifier token munches a maximal block of word characters. -/
theorem lexGo_ident (f : Nat) (c : Char) (l cs : List Char) (hst : isIdentStart c = true)
    (hall : ∀ x ∈ l, isIdentChar x = true)
    (hnc : constChars.isPrefixOf (c :: (l ++ cs)) = false)
    (hcs : restHeadSafe cs = true) :
    lexGo (f + 1) (c :: (l ++ cs)) =
      (lexGo f cs).map (fun ts => Tok.ident (String.mk (c :: l)) :: ts) := by
  obtain ⟨h1, h2, h3, h4, h5, h6, h7, h8, h9⟩ := identStart_not_punct c hst
  have htw := takeWhile_all_append isIdentChar l cs hall (fun x hx => by
    cases cs with
    | nil => cases hx
    | cons d ds =>
      have hd : isIdentChar d = false := by simpa [restHeadSafe] using hcs
      injection hx with hx
      rw [← hx]
      exact hd)
  simp only [lexGo]
  rw [if_neg (by simp [identStart_not_ws c hst]), if_neg (by simp [hnc]), if_neg h1,
    if_neg h2, if_neg h3, if_neg h4, if_neg h5, if_neg h6, if_neg h7, if_neg h8, if_neg h9,
    if_pos hst, htw.1, htw.2]

theorem lexChars_dot (cs : List Char) :
    lexChars ('.' :: cs) = (lexChars cs).map (fun ts => Tok.dot :: ts) := by
  unfold lexChars
  simp only [List.length_cons]
  exact lexGo_dot (cs.length + 1) cs

theorem lexChars_lAngle (cs : List Char) :
    lexChars ('<' :: cs) = (lexChars cs).map (fun ts => Tok.lAngle :: ts) := by
  unfold lexChars
  simp only [List.length_cons]
  exact lexGo_lAngle (cs.length + 1) cs

theorem lexChars_rAngle (cs : List Char) :
    lexChars ('>' :: cs) = (lexChars cs).map (fun ts => Tok.rAngle :: ts) := by
  unfold lexChars
  simp only [List.length_cons]
  exact lexGo_rAngle (cs.length + 1) cs

theorem lexChars_lBracket (cs : List Char) :
    lexChars ('[' :: cs) = (lexChars cs).map (fun ts => Tok.lBracket :: ts) := by
  unfold lexChars
  simp only [List.length_cons]
  exact lexGo_lBracket (cs.length + 1) cs

theorem lexChars_rBracket (cs : List Char) :
    lexChars (']' :: cs) = (lexChars cs).map (fun ts => Tok.rBracket :: ts) := by
  unfold lexChars
  simp only [List.length_cons]
  exact lexGo_rBracket (cs.length + 1) cs

theorem lexChars_comma (cs : List Char) :
    lexChars (',' :: cs) = (lexChars cs).map (fun ts => Tok.comma :: ts) := by
  unfold lexChars
  simp only [List.length_cons]
  exact lexGo_comma (cs.length + 1) cs

theorem lexChars_asterisk (cs : List Char) :
    lexChars ('*' :: cs) = (lexChars cs).map (fun ts => Tok.asterisk :: ts) := by
  unfold lexChars
  simp only [List.length_cons]
  exact lexGo_asterisk (cs.length + 1) cs

theorem lexChars_ampersand (cs : List Char) :
    lexChars ('&' :: cs) = (lexChars cs).map (fun ts => Tok.ampersand :: ts) := by
  unfold lexChars
  simp only [List.length_cons]
  exact lexGo_ampersand (cs.length + 1) cs

theorem lexChars_scopeW (cs : List Char) :
    lexChars (':' :: ':' :: cs) = (lexChars cs).map (fun ts => Tok.scope :: ts) := by
  unfold lexChars
  simp only [List.length_cons]
  rw [lexGo_scope]
  rw [lexGo_irrel (cs.length + 1 + 1) (cs.length + 1) cs (by omega) (by omega)]

theorem lexChars_constW (cs : List Char) :
    lexChars (constChars ++ cs) = (lexChars cs).map (fun ts => Tok.constTok :: ts) := by
  unfold lexChars
  rw [show (constChars ++ cs).length + 1 = (cs.length + 5) + 1 from by simp [constChars]]
  rw [lexGo_const (cs.length + 5) cs]
  rw [lexGo_irrel (cs.length + 5) (cs.length + 1) cs (by omega) (by omega)]

theorem lexChars_identW (w : String) (cs : List Char) (hw : goodIdentL w.data = true)
    (hcs : restHeadSafe cs = true) :
    lexChars (w.data ++ cs) = (lexChars cs).map (fun ts => Tok.ident w :: ts) := by
  obtain ⟨c, l, hdata⟩ : ∃ c l, w.data = c :: l := by
    cases hd : w.data with
    | nil => rw [hd] at hw; exact absurd hw (by decide)
    | cons c l => exact ⟨c, l, rfl⟩
  rw [hdata] at hw
  simp only [goodIdentL, Bool.and_eq_true, List.all_eq_true, Bool.not_eq_true'] at hw
  obtain ⟨⟨hst, hall0⟩, hnc0⟩ := hw
  have hall : ∀ x ∈ l, isIdentChar x = true := fun x hx => hall0 x (by simp [hx])
  have hnc : constChars.isPrefixOf ((c :: l) ++ cs) = false :=
    notPrefix_append constChars (c :: l) cs hnc0 (by decide) hcs
  have himg : String.mk (c :: l) = w := by
    cases w with
    | mk d =>
      have : d = c :: l := hdata
      rw [this]
  rw [hdata]
  show lexChars (c :: (l ++ cs)) = _
  unfold lexChars
  simp only [List.length_cons]
  rw [show (l ++ cs).length + 1 + 1 = ((l ++ cs).length + 1) + 1 from rfl]
  rw [lexGo_ident ((l ++ cs).length + 1) c l cs hst hall (by simpa using hnc) hcs]
  rw [himg]
  have hlen := List.length_append l cs
  rw [lexGo_irrel ((l ++ cs).length + 1) (cs.length + 1) cs (by omega) (by omega)]

/-- Decomposition of token-list safety. -/
theorem safeToks_cons (t : Tok) (ts : List Tok) (h : safeToks (t :: ts) = true) :
    goodTok t = true ∧ safeToks ts = true ∧
      (∀ t2, ts.head? = some t2 → identish t = false ∨ identish t2 = false) := by
  cases ts with
  | nil =>
    refine ⟨by simpa [safeToks] using h, rfl, ?_⟩
    intro t2 h2
    cases h2
  | cons t2 ts2 =>
    simp only [safeToks, Bool.and_eq_true] at h
    obtain ⟨⟨hg, hadj⟩, hrest⟩ := h
    refine ⟨hg, hrest, ?_⟩
    intro x hx
    injection hx with hx
    subst hx
    simpa [Bool.or_eq_true, Bool.not_eq_true'] using hadj

/-- The image of a non-word-leading token begins with a non-word character. -/
theorem image_restHeadSafe (t : Tok) (ht : identish t = false) (x : List Char) :
    restHeadSafe ((tokImage t).data ++ x) = true := by
  cases t with
  | constTok => simp [identish] at ht
  | ident w => simp [identish] at ht
  | scope => exact (by decide : (!isIdentChar ':') = true)
  | dot => exact (by decide : (!isIdentChar '.') = true)
  | lAngle => exact (by decide : (!isIdentChar '<') = true)
  | rAngle => exact (by decide : (!isIdentChar '>') = true)
  | lBracket => exact (by decide : (!isIdentChar '[') = true)
  | rBracket => exact (by decide : (!isIdentChar ']') = true)
  | comma => exact (by decide : (!isIdentChar ',') = true)
  | asterisk => exact (by decide : (!isIdentChar '*') = true)
  | ampersand => exact (by decide : (!isIdentChar '&') = true)

/-- Master lexing lemma: a safe token list, rendered as the concatenation of
its images (with or without the comma spacing of `fullName`s), lexes back to
exactly those tokens in front of whatever the remainder lexes to. -/
theorem lex_imgData : ∀ (ts : List Tok) (sp : Bool) (rest : List Char),
    safeToks ts = true → restHeadSafe rest = true →
    lexChars (imgData sp ts ++ rest) = (lexChars rest).map (fun us => ts ++ us) := by
  intro ts
  induction ts with
  | nil =>
    intro sp rest _ _
    simp [imgData]
  | cons t ts ih =>
    intro sp rest hsafe hrest
    obtain ⟨hgood, hsafe2, hadj⟩ := safeToks_cons t ts hsafe
    have hihm : lexChars (imgData sp ts ++ rest) =
        (lexChars rest).map (fun us => ts ++ us) := ih sp rest hsafe2 hrest
    cases t with
    | constTok => exact absurd hgood (by decide)
    | ident w =>
      have hw : goodIdentL w.data = true := by simpa [goodTok] using hgood
      have hcont : restHeadSafe (imgData sp ts ++ rest) = true := by
        cases ts with
        | nil => simpa [imgData] using hrest
        | cons t2 ts2 =>
          have hid2 : identish t2 = false := by
            rcases hadj t2 rfl with h | h
            · exact absurd h (by simp [identish])
            · exact h
          rw [show imgData sp (t2 :: ts2) ++ rest =
              (tokImage t2).data ++ ((if sp && t2 = Tok.comma then [' '] else []) ++
                imgData sp ts2 ++ rest) from by simp [imgData, List.append_assoc]]
          exact image_restHeadSafe t2 hid2 _
      rw [show imgData sp (Tok.ident w :: ts) ++ rest =
          w.data ++ (imgData sp ts ++ rest) from by
        simp [imgData, tokImage, List.append_assoc]]
      rw [lexChars_identW w _ hw hcont, hihm]
      simp only [Option.map_map]
      rfl
    | scope =>
      rw [show imgData sp (Tok.scope :: ts) ++ rest =
          ':' :: ':' :: (imgData sp ts ++ rest) from by simp [imgData, tokImage]]
      rw [lexChars_scopeW, hihm]
      simp only [Option.map_map]
      rfl
    | dot =>
      rw [show imgData sp (Tok.dot :: ts) ++ rest =
          '.' :: (imgData sp ts ++ rest) from by simp [imgData, tokImage]]
      rw [lexChars_dot, hihm]
      simp only [Option.map_map]
      rfl
    | lAngle =>
      rw [show imgData sp (Tok.lAngle :: ts) ++ rest =
          '<' :: (imgData sp ts ++ rest) from by simp [imgData, tokImage]]
      rw [lexChars_lAngle, hihm]
      simp only [Option.map_map]
      rfl
    | rAngle =>
      rw [show imgData sp (Tok.rAngle :: ts) ++ rest =
          '>' :: (imgData sp ts ++ rest) from by simp [imgData, tokImage]]
      rw [lexChars_rAngle, hihm]
      simp only [Option.map_map]
      rfl
    | lBracket =>
      rw [show imgData sp (Tok.lBracket :: ts) ++ rest =
          '[' :: (imgData sp ts ++ rest) from by simp [imgData, tokImage]]
      rw [lexChars_lBracket, hihm]
      simp only [Option.map_map]
      rfl
    | rBracket =>
      rw [show imgData sp (Tok.rBracket :: ts) ++ rest =
          ']' :: (imgData sp ts ++ rest) from by simp [imgData, tokImage]]
      rw [lexChars_rBracket, hihm]
      simp only [Option.map_map]
      rfl
    | asterisk =>
      rw [show imgData sp (Tok.asterisk :: ts) ++ rest =
          '*' :: (imgData sp ts ++ rest) from by simp [imgData, tokImage]]
      rw [lexChars_asterisk, hihm]
      simp only [Option.map_map]
      rfl
    | ampersand =>
      rw [show imgData sp (Tok.ampersand :: ts) ++ rest =
          '&' :: (imgData sp ts ++ rest) from by simp [imgData, tokImage]]
      rw [lexChars_ampersand, hihm]
      simp only [Option.map_map]
      rfl
    | comma =>
      cases sp with
      | false =>
        rw [show imgData false (Tok.comma :: ts) ++ rest =
            ',' :: (imgData false ts ++ rest) from by simp [imgData, tokImage]]
        rw [lexChars_comma, hihm]
        simp only [Option.map_map]
        rfl
      | true =>
        rw [show imgData true (Tok.comma :: ts) ++ rest =
            ',' :: ' ' :: (imgData true ts ++ rest) from by simp [imgData, tokImage]]
        rw [lexChars_comma, lexChars_ws ' ' _ (by decide), hihm]
        simp only [Option.map_map]
        rfl

/-! ### Safety of rendered token lists -/

theorem safeToks_cons_nonident (t : Tok) (ts : List Tok) (ht : identish t = false)
    (hg : goodTok t = true) (hts : safeToks ts = true) : safeToks (t :: ts) = true := by
  cases ts with
  | nil => simpa [safeToks] using hg
  | cons t2 ts2 =>
    simp only [safeToks, Bool.and_eq_true]
    exact ⟨⟨hg, by simp [ht]⟩, hts⟩

theorem safeToks_append (a : List Tok) : ∀ b, safeToks a = true → safeToks b = true →
    (∀ t2, b.head? = some t2 → identish t2 = false) → safeToks (a ++ b) = true := by
  induction a with
  | nil => intro b _ hb _; simpa
  | cons t a ih =>
    intro b hta hb hbd
    obtain ⟨hg, hsa, hadj⟩ := safeToks_cons t a hta
    have hrec := ih b hsa hb hbd
    cases a with
    | nil =>
      cases b with
      | nil => simpa [safeToks] using hg
      | cons t2 b2 =>
        show safeToks (t :: t2 :: b2) = true
        simp only [safeToks, Bool.and_eq_true]
        exact ⟨⟨hg, by simp [hbd t2 rfl]⟩, hb⟩
    | cons t1 a2 =>
      simp only [List.cons_append, safeToks, Bool.and_eq_true]
      refine ⟨⟨hg, ?_⟩, by simpa [List.cons_append] using hrec⟩
      rcases hadj t1 rfl with h | h <;> simp [h]

/-- The qualified-name section always starts with an Identifier token. -/
theorem qualToks_shape (parts : List String) (b : String) :
    ∃ w rest, qualToks parts b = Tok.ident w :: rest := by
  cases parts with
  | nil => exact ⟨b, [], rfl⟩
  | cons w ps => exact ⟨w, _, rfl⟩

theorem safeToks_qualToks (parts : List String) (b : String) (hb : goodIdentL b.data = true)
    (hparts : ∀ w ∈ parts, goodIdentL w.data = true) :
    safeToks (qualToks parts b) = true := by
  induction parts with
  | nil => simpa [qualToks, safeToks, goodTok] using hb
  | cons w ps ih =>
    have hw : goodIdentL w.data = true := hparts w (by simp)
    have hih := ih (fun x hx => hparts x (by simp [hx]))
    obtain ⟨w2, rest2, hshape⟩ := qualToks_shape ps b
    show safeToks (Tok.ident w :: Tok.scope :: qualToks ps b) = true
    rw [hshape]
    simp only [safeToks, Bool.and_eq_true]
    refine ⟨⟨by simpa [goodTok] using hw, by simp [identish]⟩, ⟨rfl, by simp [identish]⟩, ?_⟩
    rw [hshape] at hih
    simpa [safeToks] using hih

theorem safeToks_argsToks (tss : List (List Tok)) (h : ∀ t ∈ tss, safeToks t = true) :
    safeToks (argsToks tss) = true := by
  induction tss with
  | nil => decide
  | cons t tss ih =>
    cases tss with
    | nil =>
      show safeToks (t ++ [Tok.rAngle]) = true
      exact safeToks_append t [Tok.rAngle] (h t (by simp)) (by decide)
        (fun t2 h2 => by injection h2 with h2; rw [← h2]; rfl)
    | cons t2 tss2 =>
      show safeToks (t ++ Tok.comma :: argsToks (t2 :: tss2)) = true
      refine safeToks_append t _ (h t (by simp)) ?_
        (fun x hx => by injection hx with hx; rw [← hx]; rfl)
      exact safeToks_cons_nonident _ _ rfl rfl (ih (fun x hx => h x (by simp [hx])))

/-- Rendered token lists are lexer-safe. -/
theorem rend_safeToks : ∀ (p : ParsedType) (ts : List Tok), Rend p ts → safeToks ts = true := by
  intro p ts h
  induction h with
  | mk b parts targs prs arr c pt rf hb hparts hmatch hargs ih =>
    have hqual : safeToks (qualToks parts b) = true := safeToks_qualToks parts b hb hparts
    have hangle : safeToks (angleSect targs (prs.map Prod.snd)) = true := by
      match targs with
      | none => rfl
      | some [] => rfl
      | some (a1 :: as) =>
        show safeToks (Tok.lAngle :: argsToks (prs.map Prod.snd)) = true
        refine safeToks_cons_nonident _ _ rfl rfl (safeToks_argsToks _ ?_)
        intro x hx
        obtain ⟨pr, hpr, hpr2⟩ := List.mem_map.mp hx
        rw [← hpr2]
        exact ih pr hpr
    have harr : safeToks (arrSect arr) = true := by cases arr <;> decide
    rw [List.append_assoc]
    refine safeToks_append _ _ hqual (safeToks_append _ _ hangle harr ?_) ?_
    · intro t2 h2
      cases arr with
      | false => cases h2
      | true => injection h2 with h2; rw [← h2]; rfl
    · intro t2 h2
      match targs, h2 with
      | none, h2 =>
        cases arr with
        | false => cases h2
        | true => injection h2 with h2; rw [← h2]; rfl
      | some [], h2 =>
        cases arr with
        | false => cases h2
        | true => injection h2 with h2; rw [← h2]; rfl
      | some (a1 :: as), h2 => injection h2 with h2; rw [← h2]; rfl

/-! ### Angle-bracket balance of rendered token lists -/

theorem sliceRun_append (a : List Tok) : ∀ (b : List Tok) (d : Nat),
    sliceRun (a ++ b) d = (sliceRun a d).bind (fun e => sliceRun b e) := by
  induction a with
  | nil => intro b d; simp [sliceRun]
  | cons t a ih =>
    intro b d
    simp only [List.cons_append, sliceRun]
    by_cases h1 : t = Tok.lAngle
    · simp [h1, ih]
    · by_cases h2 : t = Tok.rAngle
      · simp only [h1, h2, if_false, if_true]
        match d with
        | 0 => rfl
        | e + 1 => exact ih b e
      · by_cases h3 : t = Tok.comma
        · simp only [h1, h2, h3, if_false, if_true]
          by_cases h4 : d = 0
          · simp [h4]
          · simp [h4, ih]
        · simp [h1, h2, h3, ih]

theorem sliceRun_shift (a : List Tok) : ∀ (d e k : Nat), sliceRun a d = some e →
    sliceRun a (d + k) = some (e + k) := by
  induction a with
  | nil =>
    intro d e k h
    simp only [sliceRun] at h ⊢
    injection h with h
    rw [h]
  | cons t a ih =>
    intro d e k h
    simp only [sliceRun] at h ⊢
    by_cases h1 : t = Tok.lAngle
    · rw [if_pos h1] at h ⊢
      have := ih (d + 1) e k h
      rw [show d + k + 1 = d + 1 + k by omega]
      exact this
    · rw [if_neg h1] at h ⊢
      by_cases h2 : t = Tok.rAngle
      · rw [if_pos h2] at h ⊢
        match d with
        | 0 => cases h
        | f + 1 =>
          rw [show f + 1 + k = (f + k) + 1 by omega]
          exact ih f e k h
      · rw [if_neg h2] at h ⊢
        by_cases h3 : t = Tok.comma
        · rw [if_pos h3] at h ⊢
          by_cases h4 : d = 0
          · rw [if_pos h4] at h; cases h
          · rw [if_neg h4] at h
            rw [if_neg (by omega)]
            exact ih d e k h
        · rw [if_neg h3] at h ⊢
          exact ih d e k h

/-- Tokens that never touch the angle-depth leave the scan unchanged. -/
theorem sliceRun_neutral (a : List Tok)
    (h : ∀ t ∈ a, t ≠ Tok.lAngle ∧ t ≠ Tok.rAngle ∧ t ≠ Tok.comma) :
    ∀ d, sliceRun a d = some d := by
  induction a with
  | nil => intro d; rfl
  | cons t a ih =>
    intro d
    obtain ⟨h1, h2, h3⟩ := h t (by simp)
    simp only [sliceRun, if_neg h1, if_neg h2, if_neg h3]
    exact ih (fun x hx => h x (by simp [hx])) d

theorem qualToks_neutral (parts : List String) (b : String) :
    ∀ t ∈ qualToks parts b, t ≠ Tok.lAngle ∧ t ≠ Tok.rAngle ∧ t ≠ Tok.comma := by
  induction parts with
  | nil =>
    intro t ht
    simp only [qualToks, List.foldr_nil, List.mem_singleton] at ht
    subst ht; exact ⟨by simp, by simp, by simp⟩
  | cons w ps ih =>
    intro t ht
    have : t = Tok.ident w ∨ t = Tok.scope ∨ t ∈ qualToks ps b := by
      simpa [qualToks] using ht
    rcases this with h | h | h
    · subst h; exact ⟨by simp, by simp, by simp⟩
    · subst h; exact ⟨by simp, by simp, by simp⟩
    · exact ih t h

theorem argsToks_sliceRun (tss : List (List Tok)) (h : ∀ t ∈ tss, sliceRun t 0 = some 0) :
    sliceRun (argsToks tss) 1 = some 0 := by
  induction tss with
  | nil => rfl
  | cons t tss ih =>
    have ht1 : sliceRun t 1 = some 1 := by
      have := sliceRun_shift t 0 0 1 (h t (by simp))
      simpa using this
    cases tss with
    | nil =>
      show sliceRun (t ++ [Tok.rAngle]) 1 = some 0
      rw [sliceRun_append, ht1]
      rfl
    | cons t2 tss2 =>
      show sliceRun (t ++ Tok.comma :: argsToks (t2 :: tss2)) 1 = some 0
      rw [sliceRun_append, ht1]
      show sliceRun (Tok.comma :: argsToks (t2 :: tss2)) 1 = some 0
      simp only [sliceRun, if_neg (by decide : (Tok.comma : Tok) ≠ Tok.lAngle),
        if_neg (by decide : (Tok.comma : Tok) ≠ Tok.rAngle), if_pos rfl,
        if_neg (by decide : (1 : Nat) ≠ 0)]
      exact ih (fun x hx => h x (by simp [hx]))

/-- Rendered token lists are angle-balanced with no exposed `>`/comma. -/
theorem rend_sliceRun : ∀ (p : ParsedType) (ts : List Tok), Rend p ts → sliceRun ts 0 = some 0 := by
  intro p ts h
  induction h with
  | mk b parts targs prs arr c pt rf hb hparts hmatch hargs ih =>
    have hqual : sliceRun (qualToks parts b) 0 = some 0 :=
      sliceRun_neutral _ (qualToks_neutral parts b) 0
    have hangle : sliceRun (angleSect targs (prs.map Prod.snd)) 0 = some 0 := by
      match targs with
      | none => rfl
      | some [] => rfl
      | some (a1 :: as) =>
        show sliceRun (Tok.lAngle :: argsToks (prs.map Prod.snd)) 0 = some 0
        simp only [sliceRun, if_pos rfl]
        refine argsToks_sliceRun _ ?_
        intro x hx
        obtain ⟨pr, hpr, hpr2⟩ := List.mem_map.mp hx
        rw [← hpr2]
        exact ih pr hpr
    have harr : sliceRun (arrSect arr) 0 = some 0 := by cases arr <;> rfl
    rw [List.append_assoc, sliceRun_append, hqual]
    show sliceRun (angleSect targs (prs.map Prod.snd) ++ arrSect arr) 0 = some 0
    rw [sliceRun_append, hangle]
    exact harr

/-! ### Image bridges -/

theorem imgData_false_eq (ts : List Tok) : imgData false ts = imagesData ts := by
  induction ts with
  | nil => rfl
  | cons t ts ih => simp [imgData, imagesData, ih]

theorem imgData_append (sp : Bool) (a : List Tok) : ∀ b,
    imgData sp (a ++ b) = imgData sp a ++ imgData sp b := by
  induction a with
  | nil => intro b; rfl
  | cons t a ih => intro b; simp [imgData, ih]

theorem sumImages_append (a : List Tok) : ∀ b,
    sumImages (a ++ b) = sumImages a + sumImages b := by
  induction a with
  | nil => intro b; simp [sumImages]
  | cons t a ih => intro b; simp [sumImages, ih]; omega

/-! ### Rendered images rebuild the `fullName` -/

theorem imgData_cons_nc (sp : Bool) (t : Tok) (ts : List Tok) (h : t ≠ Tok.comma) :
    imgData sp (t :: ts) = (tokImage t).data ++ imgData sp ts := by
  simp [imgData, h]

theorem imgData_cons_comma (ts : List Tok) :
    imgData true (Tok.comma :: ts) = ',' :: ' ' :: imgData true ts := by
  simp [imgData, tokImage]

theorem qualToks_img (sp : Bool) (b : String) : ∀ (parts : List String),
    imgData sp (qualToks parts b) =
      ((match nsOf parts with | some n => n ++ "::" ++ b | none => b) : String).data := by
  intro parts
  induction parts with
  | nil => simp [qualToks, nsOf, imgData, tokImage]
  | cons w ps ih =>
    cases ps with
    | nil =>
      show imgData sp [Tok.ident w, Tok.scope, Tok.ident b] = _
      simp [imgData, nsOf, joinSep, tokImage, String.data_append]
    | cons v ps2 =>
      show imgData sp (Tok.ident w :: Tok.scope :: qualToks (v :: ps2) b) = _
      rw [imgData_cons_nc sp _ _ (fun h => Tok.noConfusion h),
        imgData_cons_nc sp _ _ (fun h => Tok.noConfusion h), ih]
      simp [tokImage, nsOf, joinSep, String.data_append, List.append_assoc]

theorem argsToks_img (prs : List (ParsedType × List Tok))
    (h : ∀ pr ∈ prs, imgData true pr.2 = pr.1.fullName.data) :
    imgData true (argsToks (prs.map Prod.snd)) =
      (joinSep ", " ((prs.map Prod.fst).map ParsedType.fullName)).data ++ ['>'] := by
  induction prs with
  | nil => rfl
  | cons pr prs ih =>
    cases prs with
    | nil =>
      show imgData true (pr.2 ++ [Tok.rAngle]) = _
      rw [imgData_append, h pr (by simp)]
      simp [joinSep, imgData, tokImage]
    | cons pr2 rest =>
      show imgData true (pr.2 ++ Tok.comma :: argsToks ((pr2 :: rest).map Prod.snd)) = _
      rw [imgData_append, h pr (by simp)]
      have hih := ih (fun x hx => h x (by simp [hx]))
      rw [imgData_cons_comma, hih]
      simp [joinSep, tokImage, String.data_append, List.append_assoc]

/-- The spaced images of a rendered token list spell exactly the
`fullName` the parser built. -/
theorem rend_spaced : ∀ (p : ParsedType) (ts : List Tok), Rend p ts →
    imgData true ts = p.fullName.data := by
  intro p ts h
  induction h with
  | mk b parts targs prs arr c pt rf hb hparts hmatch hargs ih =>
    rw [List.append_assoc, imgData_append, imgData_append, qualToks_img]
    show _ = (buildTypeFullName b (nsOf parts) targs arr).data
    unfold buildTypeFullName buildFullName
    match targs, hmatch with
    | none, hm =>
      have hm2 : prs = [] := hm
      subst hm2
      cases arr <;> simp [angleSect, arrSect, imgData, tokImage, String.data_append]
    | some [], hm =>
      have hm2 : prs.map Prod.fst = [] := hm
      cases arr <;> simp [angleSect, arrSect, imgData, tokImage, String.data_append]
    | some (a1 :: as), hm =>
      have hm2 : prs.map Prod.fst = a1 :: as := hm
      have harg := argsToks_img prs ih
      rw [hm2] at harg
      have hA : angleSect (some (a1 :: as)) (prs.map Prod.snd) =
          Tok.lAngle :: argsToks (prs.map Prod.snd) := rfl
      rw [hA, imgData_cons_nc true _ _ (fun h => Tok.noConfusion h), harg]
      cases arr <;>
        simp [arrSect, imgData, tokImage, String.data_append, List.append_assoc]

/-! ### Parsing a rendered token list: qualified-name section -/

/-- Token lists on which the qualified-name loop stops immediately. -/
def qualStop : List Tok → Bool
  | [] => true
  | t :: _ => !(t = Tok.scope || t = Tok.dot)

/-- Trailing token lists consisting only of `*` and `&`. -/
def restOk (ts : List Tok) : Bool :=
  ts.all (fun t => t = Tok.asterisk || t = Tok.ampersand)

theorem parseQualGo_stop (tail : List Tok) (h : qualStop tail = true) (acc : List String) :
    parseQualGo acc tail = (acc, tail) := by
  match tail, h with
  | [], _ => rfl
  | Tok.constTok :: rest, _ => rfl
  | Tok.lAngle :: rest, _ => rfl
  | Tok.rAngle :: rest, _ => rfl
  | Tok.lBracket :: rest, _ => rfl
  | Tok.rBracket :: rest, _ => rfl
  | Tok.comma :: rest, _ => rfl
  | Tok.asterisk :: rest, _ => rfl
  | Tok.ampersand :: rest, _ => rfl
  | Tok.ident w :: rest, _ => rfl
  | Tok.scope :: rest, h => simp [qualStop] at h
  | Tok.dot :: rest, h => simp [qualStop] at h

theorem parseQualGo_chain (b : String) : ∀ (ps : List String) (tail : List Tok)
    (acc : List String), qualStop tail = true →
    parseQualGo acc (Tok.scope :: qualToks ps b ++ tail) = (acc ++ ps ++ [b], tail) := by
  intro ps
  induction ps with
  | nil =>
    intro tail acc h
    show parseQualGo acc (Tok.scope :: Tok.ident b :: tail) = _
    show parseQualGo (acc ++ [b]) tail = _
    rw [parseQualGo_stop tail h]
    simp
  | cons v ps2 ih =>
    intro tail acc h
    show parseQualGo acc (Tok.scope :: Tok.ident v :: (Tok.scope :: qualToks ps2 b ++ tail)) = _
    show parseQualGo (acc ++ [v]) (Tok.scope :: qualToks ps2 b ++ tail) = _
    rw [ih tail (acc ++ [v]) h]
    simp

/-- Parsing a rendered qualified name recovers the base type and namespace. -/
theorem parseQual_rend (parts : List String) (b : String) (tail : List Tok)
    (h : qualStop tail = true) :
    parseQualifiedTypeT (qualToks parts b ++ tail) = some ((b, nsOf parts), tail) := by
  cases parts with
  | nil =>
    show parseQualifiedTypeT (Tok.ident b :: tail) = _
    show some (((parseQualGo [b] tail).1.getLastD b,
      nsOf (parseQualGo [b] tail).1.dropLast), (parseQualGo [b] tail).2) = _
    rw [parseQualGo_stop tail h]
    rfl
  | cons w ps =>
    show parseQualifiedTypeT (Tok.ident w :: (Tok.scope :: qualToks ps b ++ tail)) = _
    show some (((parseQualGo [w] (Tok.scope :: qualToks ps b ++ tail)).1.getLastD w,
      nsOf (parseQualGo [w] (Tok.scope :: qualToks ps b ++ tail)).1.dropLast),
      (parseQualGo [w] (Tok.scope :: qualToks ps b ++ tail)).2) = _
    rw [parseQualGo_chain b ps tail [w] h]
    have hl : [w] ++ ps ++ [b] = (w :: ps) ++ [b] := by simp
    have h2 : ((w :: ps) ++ [b]).getLastD w = b := List.getLastD_concat w b (w :: ps)
    have h3 : ((w :: ps) ++ [b]).dropLast = w :: ps := List.dropLast_concat
    rw [hl, h2, h3]

/-! ### Parsing a rendered token list: template-argument section -/

theorem collect_slice (pf : List Tok → Option ParsedType) :
    ∀ (ts : List Tok) (d e : Nat), sliceRun ts d = some e →
    ∀ (after cur : List Tok) (args : List ParsedType),
    collectGo pf (ts ++ after) cur args (d + 1) = collectGo pf after (cur ++ ts) args (e + 1) := by
  intro ts
  induction ts with
  | nil =>
    intro d e h after cur args
    simp only [sliceRun] at h
    injection h with h
    rw [h]
    simp
  | cons t ts ih =>
    intro d e h after cur args
    simp only [sliceRun] at h
    simp only [List.cons_append, collectGo]
    have hcur : ∀ (x : List Tok), (cur ++ [t]) ++ x = cur ++ t :: x := by
      intro x; simp
    by_cases h1 : t = Tok.lAngle
    · rw [if_pos h1] at h
      rw [if_pos (by simp [isTemplateStart, h1])]
      have h6 := ih (d + 1) e h after (cur ++ [t]) args
      rw [hcur ts] at h6
      exact h6
    · rw [if_neg h1] at h
      rw [if_neg (by simp [isTemplateStart, h1])]
      by_cases h2 : t = Tok.rAngle
      · rw [if_pos h2] at h
        rw [if_pos (by simp [isTemplateEnd, h2])]
        match d, h with
        | d2 + 1, h =>
          rw [if_neg (by omega)]
          have h6 := ih d2 e h after (cur ++ [t]) args
          rw [hcur ts] at h6
          rw [show d2 + 1 + 1 - 1 = d2 + 1 by omega]
          exact h6
      · rw [if_neg h2] at h
        rw [if_neg (by simp [isTemplateEnd, h2])]
        by_cases h3 : t = Tok.comma
        · rw [if_pos h3] at h
          by_cases h4 : d = 0
          · rw [if_pos h4] at h; cases h
          · rw [if_neg h4] at h
            rw [if_neg (by simp [isArgumentSeparator, h3]; omega)]
            have h6 := ih d e h after (cur ++ [t]) args
            rw [hcur ts] at h6
            exact h6
        · rw [if_neg h3] at h
          rw [if_neg (by simp [isArgumentSeparator, h3])]
          have h6 := ih d e h after (cur ++ [t]) args
          rw [hcur ts] at h6
          exact h6

theorem collect_args (pf : List Tok → Option ParsedType) :
    ∀ (prs : List (ParsedType × List Tok)) (rest : List Tok) (args0 : List ParsedType),
    (∀ pr ∈ prs, pr.2 ≠ [] ∧ sliceRun pr.2 0 = some 0 ∧
       ∃ q, pf pr.2 = some q ∧ q.fullName = pr.1.fullName) →
    ∃ qs, collectGo pf (argsToks (prs.map Prod.snd) ++ rest) [] args0 1 = (args0 ++ qs, rest) ∧
      qs.map ParsedType.fullName = (prs.map Prod.fst).map ParsedType.fullName := by
  intro prs
  induction prs with
  | nil =>
    intro rest args0 _
    refine ⟨[], ?_, rfl⟩
    show collectGo pf (Tok.rAngle :: rest) [] args0 1 = _
    show (args0 ++ addArgumentIfValid pf [], rest) = (args0 ++ [], rest)
    rfl
  | cons pr prs ih =>
    intro rest args0 hall
    obtain ⟨hne, hrun, q, hq, hqn⟩ := hall pr (by simp)
    have hval : addArgumentIfValid pf pr.2 = [q] := by
      match hpr2 : pr.2, hne with
      | t0 :: ts0, _ =>
        show (match pf (t0 :: ts0) with | some p => [p] | none => []) = [q]
        rw [hpr2] at hq
        rw [hq]
    cases prs with
    | nil =>
      refine ⟨[q], ?_, by simp [hqn]⟩
      show collectGo pf ((pr.2 ++ [Tok.rAngle]) ++ rest) [] args0 1 = _
      rw [List.append_assoc]
      have := collect_slice pf pr.2 0 0 hrun ([Tok.rAngle] ++ rest) [] args0
      rw [this]
      show collectGo pf (Tok.rAngle :: rest) ([] ++ pr.2) args0 1 = _
      show (args0 ++ addArgumentIfValid pf ([] ++ pr.2), rest) = _
      simp only [List.nil_append]
      rw [hval]
    | cons pr2 rest2 =>
      obtain ⟨qs, hqs, hqsn⟩ := ih rest (args0 ++ [q])
        (fun x hx => hall x (by simp [hx]))
      refine ⟨q :: qs, ?_, by simp [hqn, hqsn]⟩
      show collectGo pf ((pr.2 ++ Tok.comma :: argsToks ((pr2 :: rest2).map Prod.snd)) ++ rest)
          [] args0 1 = _
      rw [List.append_assoc]
      rw [collect_slice pf pr.2 0 0 hrun _ [] args0]
      show collectGo pf (Tok.comma :: (argsToks ((pr2 :: rest2).map Prod.snd) ++ rest))
          ([] ++ pr.2) args0 1 = _
      show collectGo pf (argsToks ((pr2 :: rest2).map Prod.snd) ++ rest) []
          (args0 ++ addArgumentIfValid pf ([] ++ pr.2)) 1 = _
      simp only [List.nil_append]
      rw [hval, hqs]
      simp

/-! ### Parsing a rendered token list: array suffix -/

theorem bracketScan_zero (ts : List Tok) : bracketScan 0 ts = some ts := by
  cases ts <;> rfl

theorem checkArr_rend (arr : Bool) (rest : List Tok) (hrest : restOk rest = true) :
    checkForArrayTypeT (arrSect arr ++ rest) = (arr, rest) := by
  cases arr with
  | true =>
    show checkForArrayTypeT (Tok.lBracket :: Tok.rBracket :: rest) = _
    have h1 : bracketScan 1 (Tok.rBracket :: rest) = some rest := by
      show bracketScan (if (Tok.rBracket : Tok) = Tok.lBracket then 2
        else if (Tok.rBracket : Tok) = Tok.rBracket then 0 else 1) rest = some rest
      rw [if_neg (by decide), if_pos rfl]
      exact bracketScan_zero rest
    show (match bracketScan 1 (Tok.rBracket :: rest) with
      | some rest2 => (true, rest2)
      | none => (false, Tok.lBracket :: Tok.rBracket :: rest)) = _
    rw [h1]
  | false =>
    match rest, hrest with
    | [], _ => rfl
    | t :: ts, hrest =>
      have ht := List.all_eq_true.mp hrest t (by simp)
      cases t <;> first | rfl | simp at ht

/-! ### Pipeline computation lemmas -/

theorem qualStop_restOk (rest : List Tok) (h : restOk rest = true) : qualStop rest = true := by
  match rest, h with
  | [], _ => rfl
  | t :: ts, h =>
    have ht := List.all_eq_true.mp h t (by simp)
    cases t <;> first | rfl | simp at ht

theorem qualStop_arrRest (arr : Bool) (rest : List Tok) (h : restOk rest = true) :
    qualStop (arrSect arr ++ rest) = true := by
  cases arr with
  | true => rfl
  | false => simpa [arrSect] using qualStop_restOk rest h

theorem noAngle_arrRest (arr : Bool) (rest : List Tok) (h : restOk rest = true) :
    ∀ rs, arrSect arr ++ rest ≠ Tok.lAngle :: rs := by
  intro rs hc
  cases arr with
  | true => simp [arrSect] at hc
  | false =>
    simp only [arrSect, if_neg (by simp : ¬ false = true), List.nil_append] at hc
    rw [hc] at h
    simp [restOk] at h

/-- A rendered token list is never empty and starts with an Identifier. -/
theorem rend_head_ident (p : ParsedType) (ts : List Tok) (h : Rend p ts) :
    ∃ w r, ts = Tok.ident w :: r := by
  cases h with
  | mk b parts targs prs arr c pt rf hb hparts hmatch hargs =>
    obtain ⟨w, r, hshape⟩ := qualToks_shape parts b
    exact ⟨w, r ++ (angleSect targs (prs.map Prod.snd) ++ arrSect arr), by
      rw [List.append_assoc, hshape]; rfl⟩

theorem rend_ne_nil (p : ParsedType) (ts : List Tok) (h : Rend p ts) : ts ≠ [] := by
  obtain ⟨w, r, hw⟩ := rend_head_ident p ts h
  simp [hw]

/-- Lexing the plain re-join of a safe token list gives the tokens back. -/
theorem tokenize_joinImages (ts : List Tok) (h : safeToks ts = true) :
    tokenize (joinImages ts) = some ts := by
  show lexChars (imagesData ts) = some ts
  rw [← imgData_false_eq, ← List.append_nil (imgData false ts)]
  rw [lex_imgData ts false [] h rfl]
  simp [lexChars, lexGo]

theorem parseTypeExpr_noAngle (pf : List Tok → Option ParsedType) (toks : List Tok)
    (b : String) (ns : Option String) (tail : List Tok) (ar : Bool) (rest2 : List Tok)
    (hq : parseQualifiedTypeT toks = some ((b, ns), tail))
    (hhead : ∀ rs, tail ≠ Tok.lAngle :: rs)
    (harr : checkForArrayTypeT tail = (ar, rest2)) :
    parseTypeExpressionT pf toks = some (ParsedType.mk b ns none false false false
      (buildTypeFullName b ns none ar), rest2) := by
  unfold parseTypeExpressionT
  rw [hq]
  cases tail with
  | nil => simp only [harr]
  | cons t ts =>
    cases t
    case lAngle => exact absurd rfl (hhead ts)
    all_goals simp only [harr]

theorem parseTypeExpr_angle (pf : List Tok → Option ParsedType) (toks : List Tok)
    (b : String) (ns : Option String) (rs : List Tok) (args : List ParsedType)
    (rs2 : List Tok) (ar : Bool) (rest2 : List Tok)
    (hq : parseQualifiedTypeT toks = some ((b, ns), Tok.lAngle :: rs))
    (hcol : collectGo pf rs [] [] 1 = (args, rs2))
    (harr : checkForArrayTypeT rs2 = (ar, rest2)) :
    parseTypeExpressionT pf toks = some (ParsedType.mk b ns (some args) false false false
      (buildTypeFullName b ns (some args) ar), rest2) := by
  unfold parseTypeExpressionT
  rw [hq]
  simp only [hcol, harr]

theorem parseTokensT_eq (pf : List Tok → Option ParsedType) (toks : List Tok)
    (isC : Bool) (t1 : List Tok) (ty : ParsedType) (rest : List Tok) (pt rf : Bool)
    (hstrip : stripConstTok toks = (isC, t1))
    (hexpr : parseTypeExpressionT pf t1 = some (ty, rest))
    (htr : trailingFlagsGo false false rest = (pt, rf)) :
    parseTokensT pf toks = some (ParsedType.mk ty.baseType ty.nspace ty.templateArgs
      isC pt rf ty.fullName) := by
  unfold parseTokensT
  simp only [hstrip, hexpr, htr]

theorem parseTypeF_eq (g : Nat) (s : String) (toks : List Tok) (r : Option ParsedType)
    (htok : tokenize s = some toks)
    (hparse : parseTokensT (fun sl => parseTypeF g (joinImages sl)) toks = r) :
    parseTypeF (g + 1) s = r := by
  show (match tokenize s with
    | none => none
    | some toks => parseTokensT (fun sl => parseTypeF g (joinImages sl)) toks) = r
  rw [htok]
  exact hparse

theorem buildFullName_congr (b : String) (ns : Option String) (qs l : List ParsedType)
    (hq : qs ≠ []) (hl : l ≠ [])
    (h : qs.map ParsedType.fullName = l.map ParsedType.fullName) :
    buildFullName b ns (some qs) = buildFullName b ns (some l) := by
  match qs, l, hq, hl with
  | q :: qs2, a :: l2, _, _ =>
    simp only [buildFullName]
    rw [h]

/-! ### Size bookkeeping for the parser fuel -/

theorem goodIdentL_pos (cs : List Char) (h : goodIdentL cs = true) : 1 ≤ cs.length := by
  cases cs with
  | nil => simp [goodIdentL] at h
  | cons c cs => simp

theorem qualToks_sum_pos (parts : List String) (b : String) (hb : goodIdentL b.data = true) :
    1 ≤ sumImages (qualToks parts b) := by
  induction parts with
  | nil =>
    show 1 ≤ sumImages [Tok.ident b]
    have h1 := goodIdentL_pos b.data hb
    have h2 : sumImages [Tok.ident b] = b.data.length + 0 := rfl
    omega
  | cons w ps ih =>
    show 1 ≤ sumImages (Tok.ident w :: Tok.scope :: qualToks ps b)
    simp only [sumImages]
    omega

theorem argsToks_sum_mem : ∀ (tss : List (List Tok)) (t : List Tok), t ∈ tss →
    sumImages t + 1 ≤ sumImages (argsToks tss) := by
  intro tss
  induction tss with
  | nil => intro t ht; cases ht
  | cons t0 tss ih =>
    intro t ht
    cases tss with
    | nil =>
      have : t = t0 := by simpa using ht
      subst this
      show sumImages t + 1 ≤ sumImages (t ++ [Tok.rAngle])
      rw [sumImages_append]
      simp [sumImages, tokImage]
    | cons t2 tss2 =>
      show sumImages t + 1 ≤ sumImages (t0 ++ Tok.comma :: argsToks (t2 :: tss2))
      rw [sumImages_append]
      simp only [sumImages]
      have hc1 : (tokImage Tok.comma).data.length = 1 := rfl
      rcases (by simpa using ht : t = t0 ∨ t ∈ t2 :: tss2) with h | h
      · subst h; omega
      · have := ih t h
        omega

/-- Master soundness of rendering: a rendered token list, followed by any
`*`/`&` tail, parses back (with enough fuel for the inner re-parses) to a
type expression with the same `fullName` and cleared flags, consuming
exactly the rendered tokens. -/
theorem rend_parse : ∀ (p : ParsedType) (ts : List Tok), Rend p ts →
    ∀ (f : Nat) (rest : List Tok), sumImages ts ≤ f → restOk rest = true →
    ∃ q, parseTypeExpressionT (fun sl => parseTypeF f (joinImages sl)) (ts ++ rest) =
        some (q, rest) ∧ q.fullName = p.fullName ∧ q.isConst = false ∧
        q.isPointer = false ∧ q.isReference = false := by
  intro p ts h
  induction h with
  | mk b parts targs prs arr c pt rf hb hparts hmatch hargs ih =>
    intro f rest hf hrest
    have harr := checkArr_rend arr rest hrest
    rw [List.append_assoc, List.append_assoc]
    match targs, hmatch with
    | none, hm =>
      rw [show angleSect none (prs.map Prod.snd) = [] from rfl, List.nil_append]
      exact ⟨_, parseTypeExpr_noAngle _ _ b (nsOf parts) _ arr rest
        (parseQual_rend parts b _ (qualStop_arrRest arr rest hrest))
        (noAngle_arrRest arr rest hrest) harr, rfl, rfl, rfl, rfl⟩
    | some [], hm =>
      rw [show angleSect (some ([] : List ParsedType)) (prs.map Prod.snd) = []
        from rfl, List.nil_append]
      exact ⟨_, parseTypeExpr_noAngle _ _ b (nsOf parts) _ arr rest
        (parseQual_rend parts b _ (qualStop_arrRest arr rest hrest))
        (noAngle_arrRest arr rest hrest) harr, rfl, rfl, rfl, rfl⟩
    | some (a1 :: as), hm =>
      have hm2 : prs.map Prod.fst = a1 :: as := hm
      rw [show angleSect (some (a1 :: as)) (prs.map Prod.snd) =
        Tok.lAngle :: argsToks (prs.map Prod.snd) from rfl, List.cons_append]
      have hsplit : sumImages (qualToks parts b ++
          angleSect (some (a1 :: as)) (prs.map Prod.snd) ++ arrSect arr) =
          sumImages (qualToks parts b) +
          sumImages (angleSect (some (a1 :: as)) (prs.map Prod.snd)) +
          sumImages (arrSect arr) := by
        rw [sumImages_append, sumImages_append]
      have hangle1 : sumImages (angleSect (some (a1 :: as)) (prs.map Prod.snd)) =
          1 + sumImages (argsToks (prs.map Prod.snd)) := rfl
      rw [hsplit, hangle1] at hf
      have hb1 : 1 ≤ sumImages (qualToks parts b) := qualToks_sum_pos parts b hb
      have hprem : ∀ pr ∈ prs, pr.2 ≠ [] ∧ sliceRun pr.2 0 = some 0 ∧
          ∃ q, (fun sl => parseTypeF f (joinImages sl)) pr.2 = some q ∧
            q.fullName = pr.1.fullName := by
        intro pr hpr
        have hrd := hargs pr hpr
        refine ⟨rend_ne_nil _ _ hrd, rend_sliceRun _ _ hrd, ?_⟩
        have hb2 : sumImages pr.2 + 1 ≤ sumImages (argsToks (prs.map Prod.snd)) :=
          argsToks_sum_mem _ _ (List.mem_map_of_mem Prod.snd hpr)
        obtain ⟨g, hgf, hgs⟩ : ∃ g, f = g + 1 ∧ sumImages pr.2 ≤ g :=
          ⟨f - 1, by omega, by omega⟩
        obtain ⟨q0, hq0, hq0n, _, _, _⟩ := ih pr hpr g [] hgs rfl
        rw [List.append_nil] at hq0
        obtain ⟨w, r, hw⟩ := rend_head_ident pr.1 pr.2 hrd
        have hstrip : stripConstTok pr.2 = (false, pr.2) := by rw [hw]; rfl
        have hfull := parseTokensT_eq (fun sl => parseTypeF g (joinImages sl)) pr.2
          false pr.2 q0 [] false false hstrip hq0 rfl
        have htok : tokenize (joinImages pr.2) = some pr.2 :=
          tokenize_joinImages pr.2 (rend_safeToks pr.1 pr.2 hrd)
        have hpf := parseTypeF_eq g (joinImages pr.2) pr.2 _ htok hfull
        rw [hgf]
        exact ⟨_, hpf, hq0n⟩
      obtain ⟨qs, hqs, hqsn⟩ := collect_args (fun sl => parseTypeF f (joinImages sl))
        prs (arrSect arr ++ rest) [] hprem
      rw [List.nil_append] at hqs
      have hq := parseQual_rend parts b
        (Tok.lAngle :: (argsToks (prs.map Prod.snd) ++ (arrSect arr ++ rest))) rfl
      refine ⟨_, parseTypeExpr_angle _ _ b (nsOf parts) _ qs _ arr rest hq hqs harr,
        ?_, rfl, rfl, rfl⟩
      have hqne : qs ≠ [] := by
        intro hnil
        rw [hnil, hm2] at hqsn
        simp at hqsn
      show buildTypeFullName b (nsOf parts) (some qs) arr =
        buildTypeFullName b (nsOf parts) (some (a1 :: as)) arr
      unfold buildTypeFullName
      rw [buildFullName_congr b (nsOf parts) qs (a1 :: as) hqne (by simp)
        (by rw [hqsn, hm2])]

/-! ### Completeness: every parse result has a rendering -/

/-- Every Identifier token the lexer emits has a well-formed image. -/
theorem lexGo_good : ∀ (fuel : Nat) (cs : List Char) (ts : List Tok),
    lexGo fuel cs = some ts → ∀ w, Tok.ident w ∈ ts → goodIdentL w.data = true := by
  intro fuel
  induction fuel with
  | zero => intro cs ts h; cases h
  | succ f ih =>
    intro cs ts h w hw
    match cs, h with
    | [], h =>
      injection h with h
      rw [← h] at hw
      cases hw
    | c :: cs2, h =>
      simp only [lexGo] at h
      by_cases h1 : c.isWhitespace
      · rw [if_pos h1] at h
        exact ih cs2 ts h w hw
      · rw [if_neg h1] at h
        by_cases h2 : constChars.isPrefixOf (c :: cs2) = true
        · rw [if_pos h2] at h
          obtain ⟨ts0, hts0, hcons⟩ := Option.map_eq_some'.mp h
          rw [← hcons] at hw
          rcases List.mem_cons.mp hw with he | hm
          · cases he
          · exact ih _ ts0 hts0 w hm
        · rw [if_neg h2] at h
          by_cases h3 : c = ':'
          · rw [if_pos h3] at h
            by_cases h4 : cs2.head? = some ':'
            · rw [if_pos h4] at h
              obtain ⟨ts0, hts0, hcons⟩ := Option.map_eq_some'.mp h
              rw [← hcons] at hw
              rcases List.mem_cons.mp hw with he | hm
              · cases he
              · exact ih _ ts0 hts0 w hm
            · rw [if_neg h4] at h; cases h
          · rw [if_neg h3] at h
            -- the seven single-character branches share one shape
            have hstep : ∀ (tk : Tok), tk ≠ Tok.ident w →
                (lexGo f cs2).map (fun us => tk :: us) = some ts →
                goodIdentL w.data = true := by
              intro tk hne hmap
              obtain ⟨ts0, hts0, hcons⟩ := Option.map_eq_some'.mp hmap
              rw [← hcons] at hw
              rcases List.mem_cons.mp hw with he | hm
              · exact absurd he.symm hne
              · exact ih _ ts0 hts0 w hm
            by_cases h5 : c = '.'
            · rw [if_pos h5] at h; exact hstep Tok.dot (by simp) h
            · rw [if_neg h5] at h
              by_cases h6 : c = '<'
              · rw [if_pos h6] at h; exact hstep Tok.lAngle (by simp) h
              · rw [if_neg h6] at h
                by_cases h7 : c = '>'
                · rw [if_pos h7] at h; exact hstep Tok.rAngle (by simp) h
                · rw [if_neg h7] at h
                  by_cases h8 : c = '['
                  · rw [if_pos h8] at h; exact hstep Tok.lBracket (by simp) h
                  · rw [if_neg h8] at h
                    by_cases h9 : c = ']'
                    · rw [if_pos h9] at h; exact hstep Tok.rBracket (by simp) h
                    · rw [if_neg h9] at h
                      by_cases h10 : c = ','
                      · rw [if_pos h10] at h; exact hstep Tok.comma (by simp) h
                      · rw [if_neg h10] at h
                        by_cases h11 : c = '*'
                        · rw [if_pos h11] at h; exact hstep Tok.asterisk (by simp) h
                        · rw [if_neg h11] at h
                          by_cases h12 : c = '&'
                          · rw [if_pos h12] at h; exact hstep Tok.ampersand (by simp) h
                          · rw [if_neg h12] at h
                            by_cases h13 : isIdentStart c = true
                            · rw [if_pos h13] at h
                              obtain ⟨ts0, hts0, hcons⟩ := Option.map_eq_some'.mp h
                              rw [← hcons] at hw
                              rcases List.mem_cons.mp hw with he | hm
                              · -- the freshly emitted identifier
                                injection he with hwid
                                rw [hwid]
                                show goodIdentL (String.mk
                                  (c :: cs2.takeWhile isIdentChar)).data = true
                                show goodIdentL (c :: cs2.takeWhile isIdentChar) = true
                                simp only [goodIdentL, Bool.and_eq_true]
                                refine ⟨⟨h13, ?_⟩, ?_⟩
                                · rw [List.all_cons, Bool.and_eq_true]
                                  refine ⟨identStart_identChar c h13, ?_⟩
                                  rw [List.all_eq_true]
                                  exact fun x hx => List.mem_takeWhile_imp hx
                                · rw [Bool.not_eq_true']
                                  rw [Bool.eq_false_iff]
                                  intro hpre
                                  apply h2
                                  have hp1 : constChars <+:
                                      (c :: cs2.takeWhile isIdentChar) :=
                                    List.isPrefixOf_iff_prefix.mp hpre
                                  have hp2 : (c :: cs2.takeWhile isIdentChar) <+:
                                      (c :: cs2) := by
                                    rw [List.cons_prefix_cons]
                                    exact ⟨rfl, List.takeWhile_prefix isIdentChar⟩
                                  exact List.isPrefixOf_iff_prefix.mpr (hp1.trans hp2)
                              · exact ih _ ts0 hts0 w hm
                            · rw [if_neg h13] at h; cases h

theorem parseQualGo_mem : ∀ (n : Nat) (toks : List Tok), toks.length ≤ n →
    ∀ (acc : List String), ∃ extra, (parseQualGo acc toks).1 = acc ++ extra ∧
      ∀ w ∈ extra, Tok.ident w ∈ toks := by
  intro n
  induction n with
  | zero =>
    intro toks hlen acc
    have : toks = [] := List.eq_nil_of_length_eq_zero (by omega)
    subst this
    exact ⟨[], by simp [parseQualGo], by simp⟩
  | succ m ih =>
    intro toks hlen acc
    match toks, hlen with
    | [], _ => exact ⟨[], by simp [parseQualGo], by simp⟩
    | Tok.scope :: Tok.ident w :: rest, hlen =>
      obtain ⟨extra, he, hm⟩ := ih rest (by simp at hlen ⊢; omega) (acc ++ [w])
      refine ⟨w :: extra, ?_, ?_⟩
      · show (parseQualGo (acc ++ [w]) rest).1 = _
        rw [he]
        simp
      · intro x hx
        rcases List.mem_cons.mp hx with hx | hx
        · subst hx; simp
        · have := hm x hx
          simp [this]
    | Tok.dot :: Tok.ident w :: rest, hlen =>
      obtain ⟨extra, he, hm⟩ := ih rest (by simp at hlen ⊢; omega) (acc ++ [w])
      refine ⟨w :: extra, ?_, ?_⟩
      · show (parseQualGo (acc ++ [w]) rest).1 = _
        rw [he]
        simp
      · intro x hx
        rcases List.mem_cons.mp hx with hx | hx
        · subst hx; simp
        · have := hm x hx
          simp [this]
    | Tok.scope :: [], _ => exact ⟨[], by simp [parseQualGo], by simp⟩
    | Tok.scope :: Tok.constTok :: rest, _ => exact ⟨[], by simp [parseQualGo], by simp⟩
    | Tok.scope :: Tok.scope :: rest, _ => exact ⟨[], by simp [parseQualGo], by simp⟩
    | Tok.scope :: Tok.dot :: rest, _ => exact ⟨[], by simp [parseQualGo], by simp⟩
    | Tok.scope :: Tok.lAngle :: rest, _ => exact ⟨[], by simp [parseQualGo], by simp⟩
    | Tok.scope :: Tok.rAngle :: rest, _ => exact ⟨[], by simp [parseQualGo], by simp⟩
    | Tok.scope :: Tok.lBracket :: rest, _ => exact ⟨[], by simp [parseQualGo], by simp⟩
    | Tok.scope :: Tok.rBracket :: rest, _ => exact ⟨[], by simp [parseQualGo], by simp⟩
    | Tok.scope :: Tok.comma :: rest, _ => exact ⟨[], by simp [parseQualGo], by simp⟩
    | Tok.scope :: Tok.asterisk :: rest, _ => exact ⟨[], by simp [parseQualGo], by simp⟩
    | Tok.scope :: Tok.ampersand :: rest, _ => exact ⟨[], by simp [parseQualGo], by simp⟩
    | Tok.dot :: [], _ => exact ⟨[], by simp [parseQualGo], by simp⟩
    | Tok.dot :: Tok.constTok :: rest, _ => exact ⟨[], by simp [parseQualGo], by simp⟩
    | Tok.dot :: Tok.scope :: rest, _ => exact ⟨[], by simp [parseQualGo], by simp⟩
    | Tok.dot :: Tok.dot :: rest, _ => exact ⟨[], by simp [parseQualGo], by simp⟩
    | Tok.dot :: Tok.lAngle :: rest, _ => exact ⟨[], by simp [parseQualGo], by simp⟩
    | Tok.dot :: Tok.rAngle :: rest, _ => exact ⟨[], by simp [parseQualGo], by simp⟩
    | Tok.dot :: Tok.lBracket :: rest, _ => exact ⟨[], by simp [parseQualGo], by simp⟩
    | Tok.dot :: Tok.rBracket :: rest, _ => exact ⟨[], by simp [parseQualGo], by simp⟩
    | Tok.dot :: Tok.comma :: rest, _ => exact ⟨[], by simp [parseQualGo], by simp⟩
    | Tok.dot :: Tok.asterisk :: rest, _ => exact ⟨[], by simp [parseQualGo], by simp⟩
    | Tok.dot :: Tok.ampersand :: rest, _ => exact ⟨[], by simp [parseQualGo], by simp⟩
    | Tok.constTok :: rest, _ => exact ⟨[], by simp [parseQualGo], by simp⟩
    | Tok.lAngle :: rest, _ => exact ⟨[], by simp [parseQualGo], by simp⟩
    | Tok.rAngle :: rest, _ => exact ⟨[], by simp [parseQualGo], by simp⟩
    | Tok.lBracket :: rest, _ => exact ⟨[], by simp [parseQualGo], by simp⟩
    | Tok.rBracket :: rest, _ => exact ⟨[], by simp [parseQualGo], by simp⟩
    | Tok.comma :: rest, _ => exact ⟨[], by simp [parseQualGo], by simp⟩
    | Tok.asterisk :: rest, _ => exact ⟨[], by simp [parseQualGo], by simp⟩
    | Tok.ampersand :: rest, _ => exact ⟨[], by simp [parseQualGo], by simp⟩
    | Tok.ident w0 :: rest, _ => exact ⟨[], by simp [parseQualGo], by simp⟩

theorem collectGo_prov (pf : List Tok → Option ParsedType) :
    ∀ (ts cur : List Tok) (args : List ParsedType) (d : Nat) (q : ParsedType),
    q ∈ (collectGo pf ts cur args d).1 → q ∈ args ∨ ∃ sl, pf sl = some q := by
  intro ts
  induction ts with
  | nil =>
    intro cur args d q hq
    exact Or.inl hq
  | cons t ts ih =>
    intro cur args d q hq
    have hadd : ∀ (c2 : List Tok), q ∈ addArgumentIfValid pf c2 → ∃ sl, pf sl = some q := by
      intro c2 hq2
      match c2, hq2 with
      | t0 :: ts0, hq2 =>
        revert hq2
        show q ∈ (match pf (t0 :: ts0) with | some p => [p] | none => []) → _
        match hp : pf (t0 :: ts0) with
        | some p =>
          intro hq2
          have : q = p := by simpa using hq2
          exact ⟨t0 :: ts0, by rw [hp, this]⟩
        | none => intro hq2; cases hq2
    simp only [collectGo] at hq
    by_cases h1 : isTemplateStart t = true
    · rw [if_pos h1] at hq; exact ih _ _ _ q hq
    · rw [if_neg h1] at hq
      by_cases h2 : isTemplateEnd t = true
      · rw [if_pos h2] at hq
        by_cases h3 : d = 1
        · rw [if_pos h3] at hq
          rcases List.mem_append.mp hq with hq | hq
          · exact Or.inl hq
          · exact Or.inr (hadd cur hq)
        · rw [if_neg h3] at hq; exact ih _ _ _ q hq
      · rw [if_neg h2] at hq
        by_cases h4 : isArgumentSeparator t d = true
        · rw [if_pos h4] at hq
          rcases ih _ _ _ q hq with hq | hq
          · rcases List.mem_append.mp hq with hq | hq
            · exact Or.inl hq
            · exact Or.inr (hadd cur hq)
          · exact Or.inr hq
        · rw [if_neg h4] at hq; exact ih _ _ _ q hq

theorem getLastD_mem (l : List String) (d : String) (h : l ≠ []) : l.getLastD d ∈ l := by
  have h1 : l.getLastD d = l.getLast h := by
    conv_lhs => rw [← List.dropLast_append_getLast h]
    rw [List.getLastD_concat]
  rw [h1]
  exact List.getLast_mem h

theorem exists_pairs : ∀ (args : List ParsedType), (∀ q ∈ args, ∃ ts, Rend q ts) →
    ∃ prs : List (ParsedType × List Tok), prs.map Prod.fst = args ∧
      ∀ pr ∈ prs, Rend pr.1 pr.2 := by
  intro args
  induction args with
  | nil => intro _; exact ⟨[], rfl, by simp⟩
  | cons a args ih =>
    intro h
    obtain ⟨ts, hts⟩ := h a (by simp)
    obtain ⟨prs, hmap, hall⟩ := ih (fun q hq => h q (by simp [hq]))
    refine ⟨(a, ts) :: prs, by simp [hmap], ?_⟩
    intro pr hpr
    rcases List.mem_cons.mp hpr with hpr | hpr
    · subst hpr; exact hts
    · exact hall pr hpr

theorem stripConst_sub (toks t1 : List Tok) (isC : Bool)
    (h : stripConstTok toks = (isC, t1)) : ∀ t, t ∈ t1 → t ∈ toks := by
  match toks, h with
  | [], h =>
    injection h with _ h2
    rw [← h2]
    exact fun t ht => ht
  | Tok.constTok :: rest, h =>
    injection h with _ h2
    rw [← h2]
    exact fun t ht => by simp [ht]
  | Tok.scope :: rest, h =>
    injection h with _ h2; rw [← h2]; exact fun t ht => ht
  | Tok.dot :: rest, h =>
    injection h with _ h2; rw [← h2]; exact fun t ht => ht
  | Tok.lAngle :: rest, h =>
    injection h with _ h2; rw [← h2]; exact fun t ht => ht
  | Tok.rAngle :: rest, h =>
    injection h with _ h2; rw [← h2]; exact fun t ht => ht
  | Tok.lBracket :: rest, h =>
    injection h with _ h2; rw [← h2]; exact fun t ht => ht
  | Tok.rBracket :: rest, h =>
    injection h with _ h2; rw [← h2]; exact fun t ht => ht
  | Tok.comma :: rest, h =>
    injection h with _ h2; rw [← h2]; exact fun t ht => ht
  | Tok.asterisk :: rest, h =>
    injection h with _ h2; rw [← h2]; exact fun t ht => ht
  | Tok.ampersand :: rest, h =>
    injection h with _ h2; rw [← h2]; exact fun t ht => ht
  | Tok.ident w :: rest, h =>
    injection h with _ h2; rw [← h2]; exact fun t ht => ht

theorem parseQualifiedTypeT_nonident (t0 : Tok) (h : ∀ w, t0 ≠ Tok.ident w)
    (ts0 : List Tok) : parseQualifiedTypeT (t0 :: ts0) = none := by
  cases t0 <;> first | rfl | exact absurd rfl (h _)

theorem parseTypeExpr_none (pf : List Tok → Option ParsedType) (toks : List Tok)
    (h : parseQualifiedTypeT toks = none) : parseTypeExpressionT pf toks = none := by
  unfold parseTypeExpressionT
  rw [h]

/-- Completeness of the rendering relation: every successful parse is the
parse of some rendered token list. -/
theorem parse_rend : ∀ (f : Nat) (s : String) (p : ParsedType),
    parseTypeF f s = some p → ∃ ts, Rend p ts := by
  intro f
  induction f with
  | zero => intro s p h; cases h
  | succ g ih =>
    intro s p h
    have h' : (match tokenize s with
      | none => none
      | some toks =>
        parseTokensT (fun sl => parseTypeF g (joinImages sl)) toks) = some p := h
    rcases htok : tokenize s with _ | toks
    · rw [htok] at h'; cases h'
    · rw [htok] at h'
      unfold parseTokensT at h'
      rcases hst : stripConstTok toks with ⟨isC, t1⟩
      simp only [hst] at h'
      have hgood : ∀ w', Tok.ident w' ∈ toks → goodIdentL w'.data = true :=
        lexGo_good _ _ _ htok
      have hsub := stripConst_sub toks t1 isC hst
      cases t1 with
      | nil =>
        rw [parseTypeExpr_none _ _ (rfl : parseQualifiedTypeT [] = none)] at h'
        exact Option.noConfusion h'
      | cons t0 ts0 =>
        cases t0
        case ident w =>
          rcases hpg : parseQualGo [w] ts0 with ⟨ids, prest⟩
          have hpq : parseQualifiedTypeT (Tok.ident w :: ts0) =
              some ((ids.getLastD w, nsOf ids.dropLast), prest) := by
            unfold parseQualifiedTypeT
            simp only [hpg]
          obtain ⟨extra, hide, hmem⟩ := parseQualGo_mem ts0.length ts0 le_rfl [w]
          rw [hpg] at hide
          have hids : ids = [w] ++ extra := hide
          have hidg : ∀ x ∈ ids, goodIdentL x.data = true := by
            intro x hx
            rw [hids] at hx
            rcases List.mem_append.mp hx with hx | hx
            · have hxw : x = w := by simpa using hx
              subst hxw
              exact hgood x (hsub (Tok.ident x) (by simp))
            · exact hgood x (hsub (Tok.ident x) (by simp [hmem x hx]))
          have hidne : ids ≠ [] := by rw [hids]; simp
          have hbase : goodIdentL (ids.getLastD w).data = true :=
            hidg _ (getLastD_mem ids w hidne)
          have hparts : ∀ x ∈ ids.dropLast, goodIdentL x.data = true :=
            fun x hx => hidg x (List.dropLast_subset ids hx)
          have hang : (∃ rs, prest = Tok.lAngle :: rs) ∨ (∀ rs, prest ≠ Tok.lAngle :: rs) := by
            cases prest with
            | nil => exact Or.inr (by simp)
            | cons pt0 prs0 =>
              cases pt0
              case lAngle => exact Or.inl ⟨prs0, rfl⟩
              all_goals exact Or.inr (by simp)
          rcases hang with ⟨rs, hrs⟩ | hhead
          · subst hrs
            rcases hcg : collectGo (fun sl => parseTypeF g (joinImages sl)) rs [] [] 1
              with ⟨args, rs2⟩
            rcases hca : checkForArrayTypeT rs2 with ⟨isArr, rest2⟩
            have hexval := parseTypeExpr_angle (fun sl => parseTypeF g (joinImages sl))
              (Tok.ident w :: ts0) (ids.getLastD w) (nsOf ids.dropLast) rs args rs2
              isArr rest2 hpq hcg hca
            rw [hexval] at h'
            rcases htr : trailingFlagsGo false false rest2 with ⟨isPtr, isRef⟩
            simp only [htr] at h'
            injection h' with h2
            subst h2
            have hargsR : ∀ q ∈ args, ∃ tsq, Rend q tsq := by
              intro q hq
              have hprov := collectGo_prov (fun sl => parseTypeF g (joinImages sl))
                rs [] [] 1 q (by rw [hcg]; exact hq)
              rcases hprov with h0 | ⟨sl, hsl⟩
              · cases h0
              · exact ih (joinImages sl) q hsl
            obtain ⟨prs, hpmap, hpall⟩ := exists_pairs args hargsR
            exact ⟨_, Rend.mk (ids.getLastD w) ids.dropLast (some args) prs isArr
              isC isPtr isRef hbase hparts hpmap hpall⟩
          · rcases hca : checkForArrayTypeT prest with ⟨isArr, rest2⟩
            have hexval := parseTypeExpr_noAngle (fun sl => parseTypeF g (joinImages sl))
              (Tok.ident w :: ts0) (ids.getLastD w) (nsOf ids.dropLast) prest
              isArr rest2 hpq hhead hca
            rw [hexval] at h'
            rcases htr : trailingFlagsGo false false rest2 with ⟨isPtr, isRef⟩
            simp only [htr] at h'
            injection h' with h2
            subst h2
            exact ⟨_, Rend.mk (ids.getLastD w) ids.dropLast none [] isArr
              isC isPtr isRef hbase hparts rfl (by simp)⟩
        all_goals
          rw [parseTypeExpr_none _ _
            (parseQualifiedTypeT_nonident _ (by intro w hc; cases hc) _)] at h'
          exact Option.noConfusion h'

theorem sumImages_le_imgData (sp : Bool) : ∀ ts, sumImages ts ≤ (imgData sp ts).length := by
  intro ts
  induction ts with
  | nil => simp [sumImages, imgData]
  | cons t ts ih =>
    simp only [sumImages, imgData, List.length_append]
    omega

/-- Round trip through `normalizeType`: the normalized string (const prefix,
rendered name, `*`/`&` suffixes) parses back with the same `fullName` and
the prescribed flags. -/
theorem normalized_roundtrip (p : ParsedType) (ts : List Tok) (hR : Rend p ts)
    (c pt rf : Bool) (n : String)
    (hdata : n.data = (if c then ("const " : String).data else []) ++ imgData true ts ++
      ((if pt then ['*'] else []) ++ (if rf then ['&'] else []))) :
    ∃ q, parseTypeF (n.length + 1) n = some q ∧ q.fullName = p.fullName ∧
      q.isConst = c ∧ q.isPointer = pt ∧ q.isReference = rf := by
  have hsafe := rend_safeToks p ts hR
  have hrhs : restHeadSafe ((if pt then ['*'] else []) ++ (if rf then ['&'] else [])) = true := by
    cases pt <;> cases rf <;> decide
  have hsufLex : lexChars ((if pt then ['*'] else []) ++ (if rf then ['&'] else [])) =
      some ((if pt then [Tok.asterisk] else []) ++ (if rf then [Tok.ampersand] else [])) := by
    cases pt <;> cases rf <;> decide
  have hmain := lex_imgData ts true
    ((if pt then ['*'] else []) ++ (if rf then ['&'] else [])) hsafe hrhs
  have htokChars : lexChars n.data =
      some ((if c then [Tok.constTok] else []) ++ (ts ++
        ((if pt then [Tok.asterisk] else []) ++ (if rf then [Tok.ampersand] else [])))) := by
    rw [hdata]
    cases c with
    | false =>
      simp only [if_neg (by simp : ¬ false = true), List.nil_append]
      rw [hmain, hsufLex]
      rfl
    | true =>
      rw [show (if (true : Bool) = true then ("const " : String).data else []) =
        constChars ++ [' '] from rfl]
      rw [show (if (true : Bool) = true then [Tok.constTok] else []) = [Tok.constTok]
        from rfl]
      rw [show (constChars ++ [' ']) ++ imgData true ts ++
          ((if pt then ['*'] else []) ++ (if rf then ['&'] else [])) =
          constChars ++ (' ' :: (imgData true ts ++
          ((if pt then ['*'] else []) ++ (if rf then ['&'] else [])))) from by
        simp [List.append_assoc]]
      rw [lexChars_constW, lexChars_ws ' ' _ (by decide), hmain, hsufLex]
      rfl
  have hfuel : sumImages ts ≤ n.length := by
    have h1 : n.length = n.data.length := rfl
    have h2 := sumImages_le_imgData true ts
    rw [h1, hdata]
    simp only [List.length_append]
    omega
  have hrest : restOk ((if pt then [Tok.asterisk] else []) ++
      (if rf then [Tok.ampersand] else [])) = true := by
    cases pt <;> cases rf <;> decide
  obtain ⟨q0, hq0, hq0n, hq0c, hq0p, hq0r⟩ := rend_parse p ts hR n.length _ hfuel hrest
  have htr : trailingFlagsGo false false ((if pt then [Tok.asterisk] else []) ++
      (if rf then [Tok.ampersand] else [])) = (pt, rf) := by
    cases pt <;> cases rf <;> decide
  have hstrip : stripConstTok ((if c then [Tok.constTok] else []) ++ (ts ++
      ((if pt then [Tok.asterisk] else []) ++ (if rf then [Tok.ampersand] else [])))) =
      (c, ts ++ ((if pt then [Tok.asterisk] else []) ++
        (if rf then [Tok.ampersand] else []))) := by
    cases c with
    | true => rfl
    | false =>
      obtain ⟨w, r, hw⟩ := rend_head_ident p ts hR
      simp only [if_neg (by simp : ¬ false = true), List.nil_append]
      rw [hw, List.cons_append]
      rfl
  have hfull := parseTokensT_eq (fun sl => parseTypeF n.length (joinImages sl)) _ c _ q0 _
    pt rf hstrip hq0 htr
  exact ⟨_, parseTypeF_eq n.length n _ _ htokChars hfull, hq0n, rfl, rfl, rfl⟩

/-- `normalizeType` of a successfully parsed string, in flat form. -/
theorem normalizeType_form (t : String) (x : ParsedType) (hx : parseType t = some x) :
    normalizeType t = (if x.isConst then "const " ++ x.fullName else x.fullName) ++
      (if x.isPointer then "*" else "") ++ (if x.isReference then "&" else "") := by
  unfold normalizeType
  rw [hx]
  cases hcv : x.isConst <;> cases hpv : x.isPointer <;> cases hrv : x.isReference <;>
    simp [hcv, hpv, hrv]

/-- C4 (amended): for every successfully parsed type signature, parsing the
normalized form succeeds and yields the same `fullName` and the same
const/pointer/reference flags, hence `normalizeType` is idempotent; the
claimed identity `parse(normalize(t)).fullName = normalize(t)` holds exactly
when the parse carries none of the const/pointer/reference qualifiers
(because `normalizeType` re-appends the qualifier markers that `fullName`
always omits). -/
theorem c4_amended_normalization_idempotent (s : String) (p : ParsedType)
    (h : parseType s = some p) :
    ∃ q, parseType (normalizeType s) = some q ∧
      q.fullName = p.fullName ∧ q.isConst = p.isConst ∧
      q.isPointer = p.isPointer ∧ q.isReference = p.isReference ∧
      normalizeType (normalizeType s) = normalizeType s ∧
      (q.fullName = normalizeType s ↔
        p.isConst = false ∧ p.isPointer = false ∧ p.isReference = false) := by
  obtain ⟨ts, hR⟩ := parse_rend (s.length + 1) s p h
  have hspace := rend_spaced p ts hR
  have hnsd : (normalizeType s).data =
      (if p.isConst then ("const " : String).data else []) ++ imgData true ts ++
      ((if p.isPointer then ['*'] else []) ++ (if p.isReference then ['&'] else [])) := by
    rw [normalizeType_form s p h]
    cases hcv : p.isConst <;> cases hpv : p.isPointer <;> cases hrv : p.isReference <;>
      simp [hcv, hpv, hrv, String.data_append, ← hspace,
        show ("*" : String).data = ['*'] from rfl,
        show ("&" : String).data = ['&'] from rfl,
        show ("" : String).data = [] from rfl]
  obtain ⟨q, hq, hqn, hqc, hqp, hqr⟩ := normalized_roundtrip p ts hR
    p.isConst p.isPointer p.isReference (normalizeType s) hnsd
  have hqT : parseType (normalizeType s) = some q := hq
  have hidem : normalizeType (normalizeType s) = normalizeType s := by
    rw [normalizeType_form (normalizeType s) q hqT, hqn, hqc, hqp, hqr,
      ← normalizeType_form s p h]
  have hiff : (q.fullName = normalizeType s) ↔
      (p.isConst = false ∧ p.isPointer = false ∧ p.isReference = false) := by
    rw [hqn, normalizeType_form s p h]
    cases hcv : p.isConst <;> cases hpv : p.isPointer <;> cases hrv : p.isReference <;>
      simp [String.append_empty]
    all_goals
      intro heq
      have hlen := congrArg String.length heq
      simp only [String.length_append] at hlen
      have h6 : ("const " : String).length = 6 := rfl
      have h7 : ("*" : String).length = 1 := rfl
      have h8 : ("&" : String).length = 1 := rfl
      omega
  exact ⟨q, hqT, hqn, hqc, hqp, hqr, hidem, hiff⟩

/-- Witness for C4 (amended) at the concrete input `"const A*"`, whose parse
is `A` with the const and pointer flags set. -/
theorem c4_amended_normalization_idempotent_witness :
    parseType "const A*" = some (ParsedType.mk "A" none none true true false "A") ∧
    (∃ q, parseType (normalizeType "const A*") = some q ∧
      q.fullName = (ParsedType.mk "A" none none true true false "A").fullName ∧
      q.isConst = (ParsedType.mk "A" none none true true false "A").isConst ∧
      q.isPointer = (ParsedType.mk "A" none none true true false "A").isPointer ∧
      q.isReference = (ParsedType.mk "A" none none true true false "A").isReference ∧
      normalizeType (normalizeType "const A*") = normalizeType "const A*" ∧
      (q.fullName = normalizeType "const A*" ↔
        (ParsedType.mk "A" none none true true false "A").isConst = false ∧
        (ParsedType.mk "A" none none true true false "A").isPointer = false ∧
        (ParsedType.mk "A" none none true true false "A").isReference = false)) :=
  ⟨rfl, c4_amended_normalization_idempotent "const A*"
    (ParsedType.mk "A" none none true true false "A") rfl⟩

end KTP
